import Mathlib

/-!
Verification of the AI job-scheduler repository.

The repository's in-scope core is the predictor, the five scheduling
policies (FCFS, SJF, Priority, Round-Robin, Hybrid-AI), the metrics
calculator and the result aggregator, together with the numeric-input
handling of the workload editor.  Numbers are modelled as rationals and
stateful loops as structurally recursive functions over explicit state.
-/

namespace AIJobScheduler

/-- `clamp` as defined in the source (`Math.min(Math.max(value, min), max)`). -/
def clamp (value lo hi : ℚ) : ℚ := min (max value lo) hi

/-- Workload model: one process of the input workload (spec section 3). -/
structure ProcessInput where
  id : String
  arrivalTime : ℚ
  burstTime : ℚ
  priority : ℚ
  cpuUtilizationHint : ℚ
  ioBoundProbability : ℚ
deriving DecidableEq, Repr

/-- Per-process predicted attributes produced by the predictor. -/
structure PredictedAttributes where
  predictedBurstTime : ℚ
  predictedPriority : ℤ
  predictedQuantum : ℚ
  confidence : ℚ
deriving DecidableEq, Repr

/-- Modelled from the spec (section 4.1): the predictor's closed-form
heuristic for a single process.  The predictor itself is not under `src/`
(only its caller `predictForProcesses` import site is), so the formulas
are taken from the specification. -/
def predictOne (p : ProcessInput) : PredictedAttributes :=
  let confidence : ℚ := 1 - |p.cpuUtilizationHint - p.ioBoundProbability|
  let predictedBurstTime : ℚ :=
    max (1/10) (p.burstTime * (1 + p.cpuUtilizationHint - p.ioBoundProbability))
  let predictedPriority : ℤ :=
    round (clamp (p.priority - 2 * p.cpuUtilizationHint + 2 * p.ioBoundProbability) 1 10)
  let predictedQuantum : ℚ :=
    clamp (predictedBurstTime * (1/2 + 1/2 * confidence)) (1/2) 20
  ⟨predictedBurstTime, predictedPriority, predictedQuantum, confidence⟩

/-- Validity of one process, per the error-handling design (spec section 7):
positive burst, non-negative arrival, priority in [1,10], hints in [0,1]. -/
def validProcess (p : ProcessInput) : Prop :=
  0 < p.burstTime ∧ 0 ≤ p.arrivalTime ∧ 1 ≤ p.priority ∧ p.priority ≤ 10 ∧
  0 ≤ p.cpuUtilizationHint ∧ p.cpuUtilizationHint ≤ 1 ∧
  0 ≤ p.ioBoundProbability ∧ p.ioBoundProbability ≤ 1

instance : DecidablePred validProcess := fun p => by
  unfold validProcess; infer_instance

/-- Validity of a workload: non-empty, pairwise-distinct ids, and every
process valid (spec section 7). -/
def validWorkload (ps : List ProcessInput) : Prop :=
  ps ≠ [] ∧ (ps.map ProcessInput.id).Nodup ∧ ∀ p ∈ ps, validProcess p

instance : DecidablePred validWorkload := fun ps => by
  unfold validWorkload; infer_instance

/-- The single error kind of the core (spec section 7). -/
inductive SchedError where
  | invalidInput
deriving DecidableEq, Repr

/-- Modelled from the spec (sections 4.1, 6, 7): `predict` validates the
workload at its boundary and, on success, returns one prediction per
process, keyed by process id, in input order.  The predictor module
(`lib/ml`) is not under `src/`. -/
def predict (ps : List ProcessInput) :
    Except SchedError (List (String × PredictedAttributes)) :=
  if validWorkload ps then .ok (ps.map fun p => (p.id, predictOne p))
  else .error .invalidInput

/-- One contiguous execution slice.  `idx` is the position of the owning
process in the input workload; `start`/`stop` are the slice's `start`/`end`
times (`end` is a reserved word in Lean). -/
structure Slice where
  idx : ℕ
  start : ℚ
  stop : ℚ
deriving DecidableEq, Repr

/-- Total duration of the slices belonging to process `i`. -/
def sliceSum (i : ℕ) (l : List Slice) : ℚ :=
  ((l.filter fun s => s.idx = i).map fun s => s.stop - s.start).sum

/-- First element minimising `lt` (scanning left to right, an earlier
element wins ties), used to realise the documented tie-break "then original
input order" for the non-preemptive selection rules. -/
def pickBy (lt : α → α → Bool) : List α → Option α
  | [] => none
  | x :: xs =>
    match pickBy lt xs with
    | none => some x
    | some y => if lt y x then some y else some x

theorem pickBy_mem {lt : α → α → Bool} :
    ∀ {l : List α} {x : α}, pickBy lt l = some x → x ∈ l := by
  intro l
  induction l with
  | nil => intro x hx; simp [pickBy] at hx
  | cons a as ih =>
    intro x hx
    simp only [pickBy] at hx
    cases hs : pickBy lt as with
    | none => rw [hs] at hx; simp_all
    | some y =>
      rw [hs] at hx
      by_cases hlt : lt y a
      · simp [hlt] at hx; subst hx; exact List.mem_cons_of_mem _ (ih hs)
      · simp [hlt] at hx; subst hx; exact List.mem_cons_self _ _

theorem pickBy_eq_none {lt : α → α → Bool} :
    ∀ {l : List α}, pickBy lt l = none ↔ l = [] := by
  intro l
  cases l with
  | nil => simp [pickBy]
  | cons a as =>
    simp only [pickBy]
    cases hs : pickBy lt as with
    | none => simp
    | some y => by_cases hlt : lt y a <;> simp [hlt]

/-- Strict lexicographic order on a pair of rational sort keys. -/
def qlex (a b : ℚ × ℚ) : Bool := a.1 < b.1 ∨ (a.1 = b.1 ∧ a.2 < b.2)

/-- Smallest arrival time among the pending processes (0 on the empty
list, which is never consulted). -/
def nextArrival : List (ℕ × ProcessInput) → ℚ
  | [] => 0
  | x :: xs => xs.foldl (fun m y => min m y.2.arrivalTime) x.2.arrivalTime

/-- Clock value after the idle-gap rule of the non-preemptive skeleton
(spec section 4.2): if no pending process has arrived, advance the clock
to the next smallest arrival time. -/
def npStepTime (pending : List (ℕ × ProcessInput)) (t : ℚ) : ℚ :=
  if pending.any fun x => x.2.arrivalTime ≤ t then t else nextArrival pending

/-- Modelled from the spec (section 4.2): shared skeleton of the three
non-preemptive policies.  `pending` holds the unfinished processes in
input order, paired with their input position; `key` is the policy's sort
key among ready processes (ties beyond the key fall back to input order
because `pickBy` keeps the earliest minimum).  Each step admits arrivals,
advances over an idle gap if needed, runs the selected process to
completion, and removes it.  The scheduler modules are not under `src/`. -/
def npRun (key : ProcessInput → ℚ × ℚ) (pending : List (ℕ × ProcessInput)) (t : ℚ) :
    List Slice :=
  let t1 := npStepTime pending t
  match h : pickBy (fun a b => qlex (key a.2) (key b.2))
      (pending.filter fun x => x.2.arrivalTime ≤ t1) with
  | none => []
  | some c =>
    ⟨c.1, t1, t1 + c.2.burstTime⟩ ::
      npRun key (pending.filter fun x => x.1 ≠ c.1) (t1 + c.2.burstTime)
termination_by pending.length
decreasing_by
  have hmem : c ∈ pending := List.mem_of_mem_filter (pickBy_mem h)
  exact List.length_filter_lt_length_iff_exists.mpr ⟨c, hmem, by simp⟩

/-- FCFS sort key: smallest arrival time (spec section 4.2). -/
def fcfsKey (p : ProcessInput) : ℚ × ℚ := (p.arrivalTime, 0)

/-- SJF sort key: smallest burst time, then smallest arrival (spec 4.2). -/
def sjfKey (p : ProcessInput) : ℚ × ℚ := (p.burstTime, p.arrivalTime)

/-- Priority sort key: smallest priority value, then smallest arrival. -/
def priorityKey (p : ProcessInput) : ℚ × ℚ := (p.priority, p.arrivalTime)

/-- FCFS timeline of a workload. -/
def fcfsSlices (ps : List ProcessInput) : List Slice := npRun fcfsKey ps.enum 0

/-- SJF timeline of a workload. -/
def sjfSlices (ps : List ProcessInput) : List Slice := npRun sjfKey ps.enum 0

/-- Priority timeline of a workload. -/
def prioritySlices (ps : List ProcessInput) : List Slice := npRun priorityKey ps.enum 0

/-- A not-yet-admitted process (with its input position); the invariant
`0 < burstTime` travels with it so that the preemptive loops terminate. -/
structure Arrival where
  idx : ℕ
  proc : ProcessInput
  pos : 0 < proc.burstTime

/-- A Round-Robin ready-queue entry: a process together with its remaining
work, which is always positive (a finished process is never requeued). -/
structure RRItem where
  idx : ℕ
  proc : ProcessInput
  remaining : ℚ
  pos : 0 < remaining

/-- Admission turns an arrival into a fresh queue entry carrying its full
burst time as remaining work. -/
def toItem (a : Arrival) : RRItem := ⟨a.idx, a.proc, a.proc.burstTime, a.pos⟩

/-- Number of quantum-sized instalments needed to finish `r` units of
work: the termination measure contribution of one queue entry. -/
def instalments (q r : ℚ) : ℕ := (⌈r / q⌉).toNat

/-- Termination measure of a Round-Robin queue. -/
def queueW (q : ℚ) (l : List RRItem) : ℕ :=
  (l.map fun x => instalments q x.remaining).sum

/-- Termination measure of the not-yet-admitted processes. -/
def futureW (q : ℚ) (l : List Arrival) : ℕ :=
  (l.map fun a => instalments q a.proc.burstTime).sum

/-- Arrivals strictly after the clock (secondary termination measure: an
idle advance strictly reduces it). -/
def staleCount (t : ℚ) (l : List Arrival) : ℕ :=
  l.countP fun a => t < a.proc.arrivalTime

theorem instalments_pos {q r : ℚ} (hq : 0 < q) (hr : 0 < r) : 1 ≤ instalments q r := by
  unfold instalments
  have h1 : (0 : ℤ) < ⌈r / q⌉ := Int.ceil_pos.mpr (div_pos hr hq)
  omega

theorem instalments_sub {q r : ℚ} (hq : 0 < q) (h : q < r) :
    instalments q (r - q) + 1 = instalments q r := by
  unfold instalments
  have hne : q ≠ 0 := ne_of_gt hq
  have h1 : (r - q) / q = r / q - 1 := by field_simp
  have h2 : (1 : ℤ) < ⌈r / q⌉ := by
    rw [Int.lt_ceil]; exact_mod_cast (one_lt_div hq).mpr h
  rw [h1, Int.ceil_sub_one]
  omega

theorem queueW_append (q : ℚ) (l1 l2 : List RRItem) :
    queueW q (l1 ++ l2) = queueW q l1 + queueW q l2 := by
  simp [queueW]

theorem queueW_cons (q : ℚ) (c : RRItem) (l : List RRItem) :
    queueW q (c :: l) = instalments q c.remaining + queueW q l := by
  simp [queueW]

theorem queueW_nil (q : ℚ) : queueW q [] = 0 := rfl

theorem queueW_map_toItem (q : ℚ) (l : List Arrival) :
    queueW q (l.map toItem) = futureW q l := by
  simp [queueW, futureW, toItem, Function.comp_def]

theorem futureW_append (q : ℚ) (l1 l2 : List Arrival) :
    futureW q (l1 ++ l2) = futureW q l1 + futureW q l2 := by
  simp [futureW]

theorem futureW_split (q : ℚ) (p : Arrival → Bool) (l : List Arrival) :
    futureW q (l.takeWhile p) + futureW q (l.dropWhile p) = futureW q l := by
  rw [← futureW_append, List.takeWhile_append_dropWhile]

theorem staleCount_head_lt (t : ℚ) (f : Arrival) (tail : List Arrival)
    (h : t < f.proc.arrivalTime) :
    staleCount f.proc.arrivalTime (f :: tail) < staleCount t (f :: tail) := by
  unfold staleCount
  rw [List.countP_cons_of_neg _ _ (by simp), List.countP_cons_of_pos _ _ (by simpa using h)]
  have h3 : tail.countP (fun a => decide (f.proc.arrivalTime < a.proc.arrivalTime)) ≤
      tail.countP (fun a => decide (t < a.proc.arrivalTime)) := by
    refine List.countP_mono_left ?_
    intro a _ ha
    simp only [decide_eq_true_eq] at ha ⊢
    exact lt_trans h ha
  omega

/-- Modelled from the spec (section 4.3): the Round-Robin loop.  `future`
holds the not-yet-arrived processes in ascending arrival order (stable, so
admissions enter the queue tail in arrival order); each iteration first
admits every arrival with `arrivalTime ≤ t`, then either idles to the next
arrival or runs the queue head for `min(remaining, q)`; an unfinished head
is requeued behind the processes that arrived during its slice. -/
def rrRun (q : ℚ) (hq : 0 < q) (queue : List RRItem) (future : List Arrival) (t : ℚ) :
    List Slice :=
  let arrived := future.takeWhile fun a => a.proc.arrivalTime ≤ t
  let future1 := future.dropWhile fun a => a.proc.arrivalTime ≤ t
  match hqueue : queue ++ arrived.map toItem with
  | [] =>
    match hfut1 : future1 with
    | [] => []
    | f :: _ => rrRun q hq [] future1 f.proc.arrivalTime
  | c :: restQ =>
    if hrem : c.remaining ≤ q then
      ⟨c.idx, t, t + c.remaining⟩ :: rrRun q hq restQ future1 (t + c.remaining)
    else
      let arrived2 := future1.takeWhile fun a => a.proc.arrivalTime ≤ t + q
      let future2 := future1.dropWhile fun a => a.proc.arrivalTime ≤ t + q
      ⟨c.idx, t, t + q⟩ ::
        rrRun q hq
          (restQ ++ arrived2.map toItem ++
            [⟨c.idx, c.proc, c.remaining - q, by simpa using sub_pos.mpr (lt_of_not_le hrem)⟩])
          future2 (t + q)
termination_by (queueW q queue + futureW q future, staleCount t future)
decreasing_by
all_goals simp only [Prod.lex_def]
· rename_i tail
  obtain ⟨hq1, hq2⟩ := List.append_eq_nil.mp hqueue
  have harr : List.takeWhile (fun a => decide (a.proc.arrivalTime ≤ t)) future = [] :=
    List.map_eq_nil_iff.mp hq2
  have hdrop : List.dropWhile (fun a => decide (a.proc.arrivalTime ≤ t)) future = future := by
    conv_rhs =>
      rw [← List.takeWhile_append_dropWhile
        (p := fun a => decide (a.proc.arrivalTime ≤ t)) (l := future)]
    rw [harr, List.nil_append]
  have hfl : future = f :: tail := by rw [← hdrop]; exact hfut1
  have hf : t < f.proc.arrivalTime := by
    rw [hfl, List.takeWhile_cons] at harr
    by_contra hcon
    push_neg at hcon
    simp [hcon] at harr
  right
  constructor
  · rw [hq1, hdrop]
  · rw [hdrop, hfl]
    exact staleCount_head_lt t f tail hf
· left
  have e1 : queueW q queue +
      futureW q (List.takeWhile (fun a => decide (a.proc.arrivalTime ≤ t)) future) =
      instalments q c.remaining + queueW q restQ := by
    have := congrArg (queueW q) hqueue
    rwa [queueW_append, queueW_map_toItem, queueW_cons] at this
  have e2 := futureW_split q (fun a => decide (a.proc.arrivalTime ≤ t)) future
  have e4 : 1 ≤ instalments q c.remaining := instalments_pos hq c.pos
  omega
· left
  have e1 : queueW q queue +
      futureW q (List.takeWhile (fun a => decide (a.proc.arrivalTime ≤ t)) future) =
      instalments q c.remaining + queueW q restQ := by
    have := congrArg (queueW q) hqueue
    rwa [queueW_append, queueW_map_toItem, queueW_cons] at this
  have e2 := futureW_split q (fun a => decide (a.proc.arrivalTime ≤ t)) future
  have e3 := futureW_split q (fun a => decide (a.proc.arrivalTime ≤ t + q))
    (List.dropWhile (fun a => decide (a.proc.arrivalTime ≤ t)) future)
  have e4 : instalments q (c.remaining - q) + 1 = instalments q c.remaining :=
    instalments_sub hq (lt_of_not_le hrem)
  simp only [queueW_append, queueW_cons, queueW_map_toItem, queueW_nil]
  omega

/-- Stable insertion into a list kept in ascending arrival order: the new
element goes in front of the first element whose arrival is not smaller,
so earlier-input elements stay in front of later-input ones with the same
arrival time. -/
def insertArrival (x : Arrival) : List Arrival → List Arrival
  | [] => [x]
  | y :: ys =>
    if y.proc.arrivalTime < x.proc.arrivalTime then y :: insertArrival x ys
    else x :: y :: ys

/-- Stable sort of the arrivals by ascending arrival time. -/
def sortArrivals : List Arrival → List Arrival
  | [] => []
  | x :: xs => insertArrival x (sortArrivals xs)

/-- The enumerated workload as a list of `Arrival` values (carrying the
positivity of each burst time). -/
def mkArrivals : (l : List (ℕ × ProcessInput)) → (∀ x ∈ l, 0 < x.2.burstTime) →
    List Arrival
  | [], _ => []
  | x :: xs, h =>
    ⟨x.1, x.2, h x (List.mem_cons_self x xs)⟩ ::
      mkArrivals xs fun y hy => h y (List.mem_cons_of_mem x hy)

theorem predictedQuantum_pos (p : ProcessInput) : 0 < (predictOne p).predictedQuantum := by
  have h1 : (1/2 : ℚ) ≤ max ((predictOne p).predictedBurstTime *
      (1/2 + 1/2 * (predictOne p).confidence)) (1/2) := le_max_right _ _
  have : (0 : ℚ) < 1/2 := by norm_num
  exact lt_min (lt_of_lt_of_le this h1) (by norm_num)

/-- A Hybrid-AI ready-set entry: a process with its remaining work.  Its
predicted priority and per-process quantum are recomputed from
`predictOne` whenever needed (the predictor is deterministic, so this
equals passing the aggregator's predictions through). -/
structure HItem where
  idx : ℕ
  proc : ProcessInput
  remaining : ℚ
  pos : 0 < remaining

/-- Admission of an arrival into the Hybrid-AI ready set. -/
def toHItem (a : Arrival) : HItem := ⟨a.idx, a.proc, a.proc.burstTime, a.pos⟩

/-- Hybrid-AI selection order: smallest predicted priority, then smallest
arrival time, then input position (spec section 4.4). -/
def hLt (a b : HItem) : Bool :=
  (predictOne a.proc).predictedPriority < (predictOne b.proc).predictedPriority ∨
  ((predictOne a.proc).predictedPriority = (predictOne b.proc).predictedPriority ∧
    (a.proc.arrivalTime < b.proc.arrivalTime ∨
      (a.proc.arrivalTime = b.proc.arrivalTime ∧ a.idx < b.idx)))

/-- Instalment count of one Hybrid-AI ready entry, using that process's
own predicted quantum. -/
def hInst (x : HItem) : ℕ :=
  instalments (predictOne x.proc).predictedQuantum x.remaining

/-- Termination measure of the Hybrid-AI ready set. -/
def readyW (l : List HItem) : ℕ := (l.map hInst).sum

/-- Termination measure of the Hybrid-AI future list. -/
def hFutureW (l : List Arrival) : ℕ :=
  (l.map fun a => instalments (predictOne a.proc).predictedQuantum a.proc.burstTime).sum

theorem readyW_append (l1 l2 : List HItem) :
    readyW (l1 ++ l2) = readyW l1 + readyW l2 := by
  simp [readyW]

theorem readyW_singleton (x : HItem) : readyW [x] = hInst x := by
  simp [readyW]

theorem readyW_map_toHItem (l : List Arrival) :
    readyW (l.map toHItem) = hFutureW l := by
  simp [readyW, hFutureW, toHItem, hInst, Function.comp_def]

theorem hFutureW_append (l1 l2 : List Arrival) :
    hFutureW (l1 ++ l2) = hFutureW l1 + hFutureW l2 := by
  simp [hFutureW]

theorem hFutureW_split (p : Arrival → Bool) (l : List Arrival) :
    hFutureW (l.takeWhile p) + hFutureW (l.dropWhile p) = hFutureW l := by
  rw [← hFutureW_append, List.takeWhile_append_dropWhile]

theorem sum_map_filter_split (f : α → ℕ) (p : α → Bool) (l : List α) :
    ((l.filter p).map f).sum + ((l.filter fun x => !p x).map f).sum = (l.map f).sum := by
  induction l with
  | nil => simp
  | cons x xs ih => by_cases hx : p x <;> simp [hx, ← ih] <;> omega

theorem readyW_filter_le {c : HItem} {l : List HItem} (hc : c ∈ l) :
    readyW (l.filter fun x => x.idx ≠ c.idx) + hInst c ≤ readyW l := by
  have hsplit := sum_map_filter_split hInst (fun x => x.idx ≠ c.idx) l
  have hcmem : c ∈ l.filter fun x => !(x.idx ≠ c.idx) := by
    simp only [List.mem_filter]
    exact ⟨hc, by simp⟩
  have hle : hInst c ≤ ((l.filter fun x => !(x.idx ≠ c.idx)).map hInst).sum :=
    List.single_le_sum (fun x _ => Nat.zero_le x) _ (List.mem_map_of_mem hInst hcmem)
  unfold readyW
  omega

/-- Modelled from the spec (section 4.4): the Hybrid-AI loop.  Admission
is identical to Round-Robin; among the ready entries the smallest
`(predictedPriority, arrivalTime, input position)` is selected (freshly,
every iteration), runs for `min(remaining, its predictedQuantum)`, and is
returned to the ready set if unfinished. -/
def hybridRun (ready : List HItem) (future : List Arrival) (t : ℚ) : List Slice :=
  let arrived := future.takeWhile fun a => a.proc.arrivalTime ≤ t
  let future1 := future.dropWhile fun a => a.proc.arrivalTime ≤ t
  match hpick : pickBy hLt (ready ++ arrived.map toHItem) with
  | none =>
    match hfut1 : future1 with
    | [] => []
    | f :: _ => hybridRun [] future1 f.proc.arrivalTime
  | some c =>
    let pq := (predictOne c.proc).predictedQuantum
    let rest := (ready ++ arrived.map toHItem).filter fun x => x.idx ≠ c.idx
    if hrem : c.remaining ≤ pq then
      ⟨c.idx, t, t + c.remaining⟩ :: hybridRun rest future1 (t + c.remaining)
    else
      ⟨c.idx, t, t + pq⟩ ::
        hybridRun
          (rest ++ [⟨c.idx, c.proc, c.remaining - pq,
            by simpa using sub_pos.mpr (lt_of_not_le hrem)⟩])
          future1 (t + pq)
termination_by (readyW ready + hFutureW future, staleCount t future)
decreasing_by
all_goals simp only [Prod.lex_def]
· rename_i tail
  obtain ⟨hr1, hr2⟩ := List.append_eq_nil.mp (pickBy_eq_none.mp hpick)
  have harr : List.takeWhile (fun a => decide (a.proc.arrivalTime ≤ t)) future = [] :=
    List.map_eq_nil_iff.mp hr2
  have hdrop : List.dropWhile (fun a => decide (a.proc.arrivalTime ≤ t)) future = future := by
    conv_rhs =>
      rw [← List.takeWhile_append_dropWhile
        (p := fun a => decide (a.proc.arrivalTime ≤ t)) (l := future)]
    rw [harr, List.nil_append]
  have hfl : future = f :: tail := by rw [← hdrop]; exact hfut1
  have hf : t < f.proc.arrivalTime := by
    rw [hfl, List.takeWhile_cons] at harr
    by_contra hcon
    push_neg at hcon
    simp [hcon] at harr
  right
  constructor
  · rw [hr1, hdrop]
  · rw [hdrop, hfl]
    exact staleCount_head_lt t f tail hf
· left
  have e1 := readyW_filter_le (pickBy_mem hpick)
  have e2 : readyW (ready ++ List.map toHItem
      (List.takeWhile (fun a => decide (a.proc.arrivalTime ≤ t)) future)) =
      readyW ready +
        hFutureW (List.takeWhile (fun a => decide (a.proc.arrivalTime ≤ t)) future) := by
    rw [readyW_append, readyW_map_toHItem]
  have e3 := hFutureW_split (fun a => decide (a.proc.arrivalTime ≤ t)) future
  have e4 : 1 ≤ hInst c := instalments_pos (predictedQuantum_pos c.proc) c.pos
  unfold_let arrived future1 at e1 ⊢
  omega
· left
  have e1 := readyW_filter_le (pickBy_mem hpick)
  have e2 : readyW (List.map toHItem
      (List.takeWhile (fun a => decide (a.proc.arrivalTime ≤ t)) future)) =
      hFutureW (List.takeWhile (fun a => decide (a.proc.arrivalTime ≤ t)) future) :=
    readyW_map_toHItem _
  have e3 := hFutureW_split (fun a => decide (a.proc.arrivalTime ≤ t)) future
  have e4 : instalments (predictOne c.proc).predictedQuantum
      (c.remaining - (predictOne c.proc).predictedQuantum) + 1 =
      instalments (predictOne c.proc).predictedQuantum c.remaining :=
    instalments_sub (predictedQuantum_pos c.proc) (lt_of_not_le hrem)
  unfold_let arrived future1 at e1 ⊢
  simp only [readyW_append, readyW_singleton, hInst] at e1 ⊢
  omega

/-- The sorted arrival list fed to the two preemptive policies. -/
def initArrivals (ps : List ProcessInput) (hb : ∀ p ∈ ps, 0 < p.burstTime) :
    List Arrival :=
  sortArrivals (mkArrivals ps.enum fun x hx =>
    hb x.2 (List.getElem?_mem (List.mem_enum_iff_getElem?.mp hx)))

/-- Round-Robin timeline of a (validated) workload. -/
def roundRobinSlices (ps : List ProcessInput) (q : ℚ) (hq : 0 < q)
    (hb : ∀ p ∈ ps, 0 < p.burstTime) : List Slice :=
  rrRun q hq [] (initArrivals ps hb) 0

/-- Hybrid-AI timeline of a (validated) workload. -/
def hybridSlices (ps : List ProcessInput) (hb : ∀ p ∈ ps, 0 < p.burstTime) :
    List Slice :=
  hybridRun [] (initArrivals ps hb) 0

/-- Per-process outcome of one policy run (spec section 3). -/
structure ProcessResult where
  id : String
  arrivalTime : ℚ
  startTime : ℚ
  finishTime : ℚ
  waitingTime : ℚ
  turnaroundTime : ℚ
  responseTime : ℚ
  sliceHistory : List Slice
deriving DecidableEq, Repr

/-- Aggregate metrics of one policy run (spec section 4.5). -/
structure Summary where
  totalExecutionTime : ℚ
  cpuUtilization : ℚ
  throughput : ℚ
  averageWaitingTime : ℚ
  averageTurnaroundTime : ℚ
  averageResponseTime : ℚ
deriving DecidableEq, Repr

/-- The five policy identifiers. -/
inductive SchedulerKey where
  | fcfs
  | sjf
  | priority
  | rr
  | hybridAi
deriving DecidableEq, Repr

/-- Result of one policy run (spec section 3). -/
structure SchedulingResult where
  algorithm : SchedulerKey
  processes : List ProcessResult
  summary : Summary
deriving DecidableEq, Repr

/-- Modelled from the spec (section 3): build the `ProcessResult` of the
process at input position `i` from the policy's timeline.  `startTime` is
the first slice's start, `finishTime` the last slice's end,
`turnaroundTime = finishTime − arrivalTime`,
`waitingTime = turnaroundTime − burstTime`, and
`responseTime = startTime − arrivalTime`. -/
def mkProcessResult (i : ℕ) (p : ProcessInput) (slices : List Slice) : ProcessResult :=
  let hist := slices.filter fun s => s.idx = i
  let startTime := match hist.head? with
    | some s => s.start
    | none => p.arrivalTime
  let finishTime := match hist.getLast? with
    | some s => s.stop
    | none => p.arrivalTime
  { id := p.id
    arrivalTime := p.arrivalTime
    startTime := startTime
    finishTime := finishTime
    waitingTime := finishTime - p.arrivalTime - p.burstTime
    turnaroundTime := finishTime - p.arrivalTime
    responseTime := startTime - p.arrivalTime
    sliceHistory := hist }

/-- Makespan: `max finishTime − min arrivalTime` over the processes (0 for
an empty run). -/
def totalExecutionTime (l : List ProcessResult) : ℚ :=
  match l with
  | [] => 0
  | r :: rs =>
    rs.foldl (fun m x => max m x.finishTime) r.finishTime -
      rs.foldl (fun m x => min m x.arrivalTime) r.arrivalTime

/-- Total busy time: the sum of all slice durations across all processes. -/
def busyTime (l : List ProcessResult) : ℚ :=
  (l.map fun r => ((r.sliceHistory.map fun s => s.stop - s.start).sum)).sum

/-- Modelled from the spec (section 4.5): the metrics calculator.  Every
division is guarded: a zero makespan (or an empty run) reports 0. -/
def summarize (l : List ProcessResult) : Summary :=
  let t := totalExecutionTime l
  let n : ℚ := l.length
  { totalExecutionTime := t
    cpuUtilization := if t = 0 then 0 else 100 * busyTime l / t
    throughput := if t = 0 then 0 else n / t
    averageWaitingTime := if n = 0 then 0 else (l.map (fun r => r.waitingTime)).sum / n
    averageTurnaroundTime := if n = 0 then 0 else (l.map (fun r => r.turnaroundTime)).sum / n
    averageResponseTime := if n = 0 then 0 else (l.map (fun r => r.responseTime)).sum / n }

/-- Package one policy's timeline as a `SchedulingResult`; the processes
appear in input-workload order. -/
def buildResult (alg : SchedulerKey) (ps : List ProcessInput) (slices : List Slice) :
    SchedulingResult :=
  let results := ps.enum.map fun x => mkProcessResult x.1 x.2 slices
  { algorithm := alg, processes := results, summary := summarize results }

theorem validWorkload_burst_pos {ps : List ProcessInput} (h : validWorkload ps) :
    ∀ p ∈ ps, 0 < p.burstTime :=
  fun p hp => (h.2.2 p hp).1

/-- Modelled from the spec (section 4.6): the result aggregator.  It
validates workload and quantum at its boundary and, on success, runs the
five policies in the fixed order FCFS, SJF, Priority, Round-Robin,
Hybrid-AI over the same workload. -/
def runSchedulers (ps : List ProcessInput) (q : ℚ) :
    Except SchedError (List SchedulingResult) :=
  if h : validWorkload ps ∧ 0 < q then
    .ok
      [buildResult .fcfs ps (fcfsSlices ps),
        buildResult .sjf ps (sjfSlices ps),
        buildResult .priority ps (prioritySlices ps),
        buildResult .rr ps (roundRobinSlices ps q h.2 (validWorkload_burst_pos h.1)),
        buildResult .hybridAi ps (hybridSlices ps (validWorkload_burst_pos h.1))]
  else .error .invalidInput

/-! ## Presentation layer (embedded from the page component under `src/`) -/

/-- The editable numeric fields of a process row. -/
inductive ProcessField where
  | arrivalTime
  | burstTime
  | priority
  | cpuUtilizationHint
  | ioBoundProbability
deriving DecidableEq, Repr

/-- Embedded from `ProcessTable`: the value actually stored by
`handleProcessChange` when the user edits a field.  The burst, priority
and hint inputs clamp through `clamp` in their `onChange` handlers; the
arrival input passes the entered value through unchanged (its HTML
`min={0}` attribute does not constrain the stored value). -/
def processTableStoredValue (field : ProcessField) (value : ℚ) : ℚ :=
  match field with
  | .arrivalTime => value
  | .burstTime => clamp value 1 60
  | .priority => clamp value 1 10
  | .cpuUtilizationHint => clamp value 0 1
  | .ioBoundProbability => clamp value 0 1

/-- Embedded from `HomePage`: the base-quantum input stores
`clamp(Number(event.target.value), 0.5, 20)`. -/
def quantumStoredValue (value : ℚ) : ℚ := clamp value (1/2) 20

/-- Embedded from the page component: the template for a newly added
process. -/
def defaultProcess : ProcessInput :=
  { id := "p-new"
    arrivalTime := 0
    burstTime := 6
    priority := 3
    cpuUtilizationHint := 3/5
    ioBoundProbability := 1/2 }

/-- The candidate id `p<k>` tried by `generateProcessId`. -/
def pid (k : ℕ) : String := "p" ++ Nat.repr k

/-- Embedded from `generateProcessId`: the `while` loop, with enough fuel
for `existing.length + 1` candidate indices (the loop body runs once per
colliding index, and at most `existing.length` indices can collide). -/
def freeIdxAux (existing : List ProcessInput) : ℕ → ℕ → ℕ
  | idx, 0 => idx
  | idx, fuel + 1 =>
    if existing.any fun p => p.id = pid idx then freeIdxAux existing (idx + 1) fuel
    else idx

/-- Embedded from the page component: start at `existing.length + 1` and
increment past every index whose `p<idx>` id is already taken. -/
def generateProcessId (existing : List ProcessInput) : String :=
  pid (freeIdxAux existing (existing.length + 1) (existing.length + 1))

/-- Embedded from `addProcess`: append a new process whose id is freshly
generated and whose attributes derive from the last row (or the default
template), with priority and hints clamped. -/
def addProcess (prev : List ProcessInput) : List ProcessInput :=
  prev ++
    [{ id := generateProcessId prev
       arrivalTime := ((prev.getLast?).map ProcessInput.arrivalTime).getD
         defaultProcess.arrivalTime + 1
       burstTime := ((prev.getLast?).map ProcessInput.burstTime).getD
         defaultProcess.burstTime
       priority := clamp (((prev.getLast?).map ProcessInput.priority).getD
         defaultProcess.priority) 1 10
       cpuUtilizationHint := clamp
         (((prev.getLast?).map ProcessInput.cpuUtilizationHint).getD
           defaultProcess.cpuUtilizationHint) 0 1
       ioBoundProbability := clamp
         (((prev.getLast?).map ProcessInput.ioBoundProbability).getD
           defaultProcess.ioBoundProbability) 0 1 }]

/-! ### Injectivity of the decimal id template

`Nat.repr` renders a number through `Nat.toDigitsCore`; the following
fuel-free characterisation lets us prove the rendering injective, which
`generateProcessId`'s freshness argument needs. -/

/-- Decimal digit list of a natural number (most significant first). -/
def decDigits (n : ℕ) : List Char :=
  if n < 10 then [Nat.digitChar n]
  else decDigits (n / 10) ++ [Nat.digitChar (n % 10)]
termination_by n
decreasing_by
  exact Nat.div_lt_self (by omega) (by norm_num)

theorem toDigitsCore_eq_decDigits (f : ℕ) :
    ∀ n l, n < f → Nat.toDigitsCore 10 f n l = decDigits n ++ l := by
  induction f with
  | zero => intro n l h; omega
  | succ f ih =>
    intro n l h
    by_cases h10 : n < 10
    · have hdiv : n / 10 = 0 := Nat.div_eq_of_lt h10
      rw [decDigits]
      simp [Nat.toDigitsCore, hdiv, h10, Nat.mod_eq_of_lt h10]
    · have hdiv : n / 10 ≠ 0 := by omega
      have hlt : n / 10 < f := by
        have h1 : n / 10 < n := Nat.div_lt_self (by omega) (by norm_num)
        omega
      rw [decDigits, if_neg h10]
      simp only [Nat.toDigitsCore, hdiv, if_false]
      rw [ih (n / 10) (Nat.digitChar (n % 10) :: l) hlt, List.append_assoc,
        List.singleton_append]

theorem decDigits_ne_nil (n : ℕ) : decDigits n ≠ [] := by
  rw [decDigits]
  by_cases h10 : n < 10 <;> simp [h10]

theorem digitChar_inj_lt :
    ∀ a, a < 10 → ∀ b, b < 10 → Nat.digitChar a = Nat.digitChar b → a = b := by
  decide

theorem decDigits_lt_ten {n : ℕ} (h : n < 10) : decDigits n = [Nat.digitChar n] := by
  rw [decDigits, if_pos h]

theorem decDigits_ge_ten {n : ℕ} (h : ¬n < 10) :
    decDigits n = decDigits (n / 10) ++ [Nat.digitChar (n % 10)] := by
  conv_lhs => rw [decDigits]
  rw [if_neg h]

theorem decDigits_inj (m : ℕ) :
    ∀ n, decDigits m = decDigits n → m = n := by
  induction m using Nat.strong_induction_on with
  | _ m ih =>
    intro n h
    by_cases hm : m < 10 <;> by_cases hn : n < 10
    · rw [decDigits_lt_ten hm, decDigits_lt_ten hn] at h
      exact digitChar_inj_lt m hm n hn (by simpa using h)
    · rw [decDigits_lt_ten hm, decDigits_ge_ten hn] at h
      have hlen := congrArg List.length h
      simp only [List.length_append, List.length_singleton] at hlen
      have hpos : 0 < (decDigits (n / 10)).length :=
        List.length_pos.mpr (decDigits_ne_nil _)
      omega
    · rw [decDigits_ge_ten hm, decDigits_lt_ten hn] at h
      have hlen := congrArg List.length h
      simp only [List.length_append, List.length_singleton] at hlen
      have hpos : 0 < (decDigits (m / 10)).length :=
        List.length_pos.mpr (decDigits_ne_nil _)
      omega
    · rw [decDigits_ge_ten hm, decDigits_ge_ten hn] at h
      obtain ⟨h1, h2⟩ := List.append_inj' h (by simp)
      have hdiv : m / 10 = n / 10 :=
        ih (m / 10) (Nat.div_lt_self (by omega) (by norm_num)) (n / 10) h1
      have hmod : m % 10 = n % 10 :=
        digitChar_inj_lt (m % 10) (Nat.mod_lt m (by norm_num)) (n % 10)
          (Nat.mod_lt n (by norm_num)) (by simpa using h2)
      omega

theorem natRepr_inj {m n : ℕ} (h : Nat.repr m = Nat.repr n) : m = n := by
  have hdata := congrArg String.data h
  simp only [Nat.repr, Nat.toDigits, List.asString] at hdata
  rw [toDigitsCore_eq_decDigits (m + 1) m [] (by omega),
    toDigitsCore_eq_decDigits (n + 1) n [] (by omega)] at hdata
  simpa using decDigits_inj m n (by simpa using hdata)

theorem pid_inj {a b : ℕ} (h : pid a = pid b) : a = b := by
  unfold pid at h
  have hdata := congrArg String.data h
  simp only [String.data_append] at hdata
  exact natRepr_inj (congrArg String.mk (by simpa using hdata))

/-! ## Generic helper lemmas -/

theorem sliceSum_nil (i : ℕ) : sliceSum i [] = 0 := rfl

theorem sliceSum_cons (s : Slice) (i : ℕ) (l : List Slice) :
    sliceSum i (s :: l) = (if s.idx = i then s.stop - s.start else 0) + sliceSum i l := by
  by_cases h : s.idx = i <;> simp [sliceSum, h]

theorem foldl_min_exists (f : α → ℚ) :
    ∀ (l : List α) (init : ℚ),
      l.foldl (fun m y => min m (f y)) init = init ∨
        ∃ x ∈ l, l.foldl (fun m y => min m (f y)) init = f x := by
  intro l
  induction l with
  | nil => intro init; left; rfl
  | cons y ys ih =>
    intro init
    rcases ih (min init (f y)) with h | ⟨x, hx, hfx⟩
    · rcases le_total init (f y) with hle | hle
      · left; exact h.trans (min_eq_left hle)
      · right; exact ⟨y, List.mem_cons_self _ _, h.trans (min_eq_right hle)⟩
    · right; exact ⟨x, List.mem_cons_of_mem _ hx, hfx⟩

theorem foldl_min_le (f : α → ℚ) :
    ∀ (l : List α) (init : ℚ),
      (l.foldl (fun m y => min m (f y)) init ≤ init) ∧
        ∀ x ∈ l, l.foldl (fun m y => min m (f y)) init ≤ f x := by
  intro l
  induction l with
  | nil => intro init; exact ⟨le_refl _, by simp⟩
  | cons y ys ih =>
    intro init
    obtain ⟨h1, h2⟩ := ih (min init (f y))
    refine ⟨le_trans h1 (min_le_left _ _), ?_⟩
    intro x hx
    rcases List.mem_cons.mp hx with rfl | hx
    · exact le_trans h1 (min_le_right _ _)
    · exact h2 x hx

theorem foldl_max_exists (f : α → ℚ) :
    ∀ (l : List α) (init : ℚ),
      l.foldl (fun m y => max m (f y)) init = init ∨
        ∃ x ∈ l, l.foldl (fun m y => max m (f y)) init = f x := by
  intro l
  induction l with
  | nil => intro init; left; rfl
  | cons y ys ih =>
    intro init
    rcases ih (max init (f y)) with h | ⟨x, hx, hfx⟩
    · rcases le_total (f y) init with hle | hle
      · left; exact h.trans (max_eq_left hle)
      · right; exact ⟨y, List.mem_cons_self _ _, h.trans (max_eq_right hle)⟩
    · right; exact ⟨x, List.mem_cons_of_mem _ hx, hfx⟩

theorem foldl_max_le (f : α → ℚ) :
    ∀ (l : List α) (init : ℚ),
      (init ≤ l.foldl (fun m y => max m (f y)) init) ∧
        ∀ x ∈ l, f x ≤ l.foldl (fun m y => max m (f y)) init := by
  intro l
  induction l with
  | nil => intro init; exact ⟨le_refl _, by simp⟩
  | cons y ys ih =>
    intro init
    obtain ⟨h1, h2⟩ := ih (max init (f y))
    refine ⟨le_trans (le_max_left _ _) h1, ?_⟩
    intro x hx
    rcases List.mem_cons.mp hx with rfl | hx
    · exact le_trans (le_max_right _ _) h1
    · exact h2 x hx

/-! ## Invariants of the non-preemptive skeleton -/

theorem nextArrival_exists {pending : List (ℕ × ProcessInput)} (h : pending ≠ []) :
    ∃ x ∈ pending, x.2.arrivalTime = nextArrival pending := by
  match pending, h with
  | x0 :: xs, _ =>
    unfold nextArrival
    rcases foldl_min_exists (fun y : ℕ × ProcessInput => y.2.arrivalTime) xs
        x0.2.arrivalTime with h | ⟨x, hx, hfx⟩
    · exact ⟨x0, List.mem_cons_self _ _, h.symm⟩
    · exact ⟨x, List.mem_cons_of_mem _ hx, hfx.symm⟩

theorem npReady_exists {pending : List (ℕ × ProcessInput)} (t : ℚ) (h : pending ≠ []) :
    ∃ x ∈ pending, x.2.arrivalTime ≤ npStepTime pending t := by
  unfold npStepTime
  by_cases hany : pending.any fun x => x.2.arrivalTime ≤ t
  · rw [if_pos hany]
    obtain ⟨x, hx, hxt⟩ := List.any_eq_true.mp hany
    exact ⟨x, hx, by simpa using hxt⟩
  · rw [if_neg hany]
    obtain ⟨x, hx, hxe⟩ := nextArrival_exists h
    exact ⟨x, hx, le_of_eq hxe⟩

theorem npRun_nil (key : ProcessInput → ℚ × ℚ) (t : ℚ) : npRun key [] t = [] := by
  rw [npRun]
  split
  · rfl
  · rename_i c hc
    simp [pickBy] at hc

theorem npRun_sliceSum (key : ProcessInput → ℚ × ℚ) :
    ∀ (pending : List (ℕ × ProcessInput)) (t : ℚ),
      List.Pairwise (fun a b => a.1 ≠ b.1) pending →
      (∀ x ∈ pending, sliceSum x.1 (npRun key pending t) = x.2.burstTime) ∧
      (∀ i, (∀ x ∈ pending, x.1 ≠ i) → sliceSum i (npRun key pending t) = 0) := by
  intro pending t
  induction pending, t using npRun.induct key with
  | case1 pending t t1 hnone =>
    have hpend : pending = [] := by
      by_contra hne
      obtain ⟨x, hx, hxt⟩ := npReady_exists t hne
      have : x ∈ pending.filter fun y => decide (y.2.arrivalTime ≤ t1) := by
        simp only [List.mem_filter]
        exact ⟨hx, by simpa using hxt⟩
      rw [pickBy_eq_none.mp hnone] at this
      simp at this
    subst hpend
    intro _
    rw [npRun_nil]
    constructor
    · intro x hx; simp at hx
    · intro i _
      exact sliceSum_nil i
  | case2 pending t t1 c hsome ih =>
    intro hpair
    have hcmem : c ∈ pending := List.mem_of_mem_filter (pickBy_mem hsome)
    have hpair2 : List.Pairwise (fun a b => a.1 ≠ b.1)
        (pending.filter fun x => x.1 ≠ c.1) := List.Pairwise.filter _ hpair
    obtain ⟨ihA, ihB⟩ := ih hpair2
    have hrun : npRun key pending t =
        ⟨c.1, t1, t1 + c.2.burstTime⟩ ::
          npRun key (pending.filter fun x => x.1 ≠ c.1) (t1 + c.2.burstTime) := by
      rw [npRun]
      rw [show npStepTime pending t = t1 from rfl, hsome]
    constructor
    · intro x hx
      by_cases hxc : x.1 = c.1
      · have hxeq : x = c := by
          by_contra hne
          exact (List.Pairwise.forall (fun a b hab => hab.symm) hpair hx hcmem hne) hxc
        subst hxeq
        rw [hrun, sliceSum_cons,
          if_pos (show (⟨x.1, t1, t1 + x.2.burstTime⟩ : Slice).idx = x.1 from rfl),
          ihB x.1 fun y hy => by simpa using (List.mem_filter.mp hy).2]
        ring
      · rw [hrun, sliceSum_cons,
          if_neg (show ¬(⟨c.1, t1, t1 + c.2.burstTime⟩ : Slice).idx = x.1 from
            fun hh => hxc hh.symm),
          zero_add]
        exact ihA x (List.mem_filter.mpr ⟨hx, by simpa using hxc⟩)
    · intro i hi
      rw [hrun, sliceSum_cons,
        if_neg (show ¬(⟨c.1, t1, t1 + c.2.burstTime⟩ : Slice).idx = i from hi c hcmem),
        zero_add]
      exact ihB i fun y hy => hi y (List.mem_of_mem_filter hy)

theorem rrRun_step_done {q : ℚ} {hq : 0 < q} {queue : List RRItem} {future : List Arrival} {t : ℚ}
    (h1 : queue ++ (future.takeWhile fun a => a.proc.arrivalTime ≤ t).map toItem = [])
    (h2 : future.dropWhile (fun a => a.proc.arrivalTime ≤ t) = []) :
    rrRun q hq queue future t = [] := by
  rw [rrRun]
  split
  · split
    · rfl
    · rename_i f tl hft
      rw [h2] at hft
      cases hft
  · rename_i c restQ hq1
    rw [h1] at hq1
    cases hq1

theorem rrRun_step_idle {q : ℚ} {hq : 0 < q} {queue : List RRItem} {future : List Arrival} {t : ℚ}
    {f : Arrival} {tl : List Arrival}
    (h1 : queue ++ (future.takeWhile fun a => a.proc.arrivalTime ≤ t).map toItem = [])
    (h2 : future.dropWhile (fun a => a.proc.arrivalTime ≤ t) = f :: tl) :
    rrRun q hq queue future t =
      rrRun q hq [] (future.dropWhile fun a => a.proc.arrivalTime ≤ t) f.proc.arrivalTime := by
  rw [rrRun]
  split
  · split
    · rename_i hft
      rw [h2] at hft
      cases hft
    · rename_i g tl2 hft
      rw [h2] at hft
      cases hft
      rfl
  · rename_i c restQ hq1
    rw [h1] at hq1
    cases hq1

theorem rrRun_step_complete {q : ℚ} {hq : 0 < q} {queue : List RRItem} {future : List Arrival} {t : ℚ}
    {c : RRItem} {restQ : List RRItem}
    (h1 : queue ++ (future.takeWhile fun a => a.proc.arrivalTime ≤ t).map toItem = c :: restQ)
    (h2 : c.remaining ≤ q) :
    rrRun q hq queue future t =
      ⟨c.idx, t, t + c.remaining⟩ ::
        rrRun q hq restQ (future.dropWhile fun a => a.proc.arrivalTime ≤ t) (t + c.remaining) := by
  rw [rrRun]
  split
  · rename_i hq1
    rw [h1] at hq1
    cases hq1
  · rename_i c2 restQ2 hq1
    rw [h1] at hq1
    cases hq1
    rw [dif_pos h2]

theorem rrRun_step_requeue {q : ℚ} {hq : 0 < q} {queue : List RRItem} {future : List Arrival} {t : ℚ}
    {c : RRItem} {restQ : List RRItem}
    (h1 : queue ++ (future.takeWhile fun a => a.proc.arrivalTime ≤ t).map toItem = c :: restQ)
    (h2 : ¬c.remaining ≤ q) :
    rrRun q hq queue future t =
      ⟨c.idx, t, t + q⟩ ::
        rrRun q hq
          (restQ ++ ((future.dropWhile fun a => a.proc.arrivalTime ≤ t).takeWhile
              fun a => a.proc.arrivalTime ≤ t + q).map toItem ++
            [⟨c.idx, c.proc, c.remaining - q, by simpa using sub_pos.mpr (lt_of_not_le h2)⟩])
          ((future.dropWhile fun a => a.proc.arrivalTime ≤ t).dropWhile
            fun a => a.proc.arrivalTime ≤ t + q)
          (t + q) := by
  rw [rrRun]
  split
  · rename_i hq1
    rw [h1] at hq1
    cases hq1
  · rename_i c2 restQ2 hq1
    rw [h1] at hq1
    cases hq1
    rw [dif_neg h2]


/-! ## The global non-overlap invariant -/

/-- `SlicesChain t l`: the slices of `l` appear in chronological order,
all at or after time `t`, each with positive duration, with each slice
ending no later than the next begins. -/
def SlicesChain : ℚ → List Slice → Prop
  | _, [] => True
  | t, s :: rest => t ≤ s.start ∧ s.start < s.stop ∧ SlicesChain s.stop rest

theorem slicesChain_start_le :
    ∀ (l : List Slice) (t : ℚ), SlicesChain t l → ∀ s ∈ l, t ≤ s.start := by
  intro l
  induction l with
  | nil => intro t _ s hs; cases hs
  | cons s0 rest ih =>
    intro t h s hs
    obtain ⟨h1, h2, h3⟩ := h
    rcases List.mem_cons.mp hs with rfl | hs
    · exact h1
    · exact le_trans (le_trans h1 (le_of_lt h2)) (ih s0.stop h3 s hs)

theorem slicesChain_pairwise :
    ∀ (l : List Slice) (t : ℚ), SlicesChain t l →
      List.Pairwise (fun a b : Slice => a.stop ≤ b.start) l := by
  intro l
  induction l with
  | nil => intro t _; exact List.Pairwise.nil
  | cons s0 rest ih =>
    intro t h
    obtain ⟨h1, h2, h3⟩ := h
    exact List.Pairwise.cons (fun b hb => slicesChain_start_le rest s0.stop h3 b hb)
      (ih s0.stop h3)

theorem slicesChain_weaken {l : List Slice} {t u : ℚ} (h : u ≤ t)
    (hc : SlicesChain t l) : SlicesChain u l := by
  cases l with
  | nil => trivial
  | cons s rest => exact ⟨le_trans h hc.1, hc.2.1, hc.2.2⟩

/-- Any two distinct slices of a chained list are disjoint in time. -/
theorem slicesChain_disjoint {l : List Slice} {t : ℚ} (h : SlicesChain t l)
    {s1 s2 : Slice} (h1 : s1 ∈ l) (h2 : s2 ∈ l) (hne : s1 ≠ s2) :
    s1.stop ≤ s2.start ∨ s2.stop ≤ s1.start := by
  have hp : List.Pairwise
      (fun a b : Slice => a.stop ≤ b.start ∨ b.stop ≤ a.start) l :=
    (slicesChain_pairwise l t h).imp fun hab => Or.inl hab
  exact hp.forall (fun a b hab => hab.symm) h1 h2 hne

theorem npStepTime_ge {pending : List (ℕ × ProcessInput)} (t : ℚ)
    (hne : pending ≠ []) : t ≤ npStepTime pending t := by
  unfold npStepTime
  by_cases hany : pending.any fun x => x.2.arrivalTime ≤ t
  · rw [if_pos hany]
  · rw [if_neg hany]
    obtain ⟨x, hx, hxe⟩ := nextArrival_exists hne
    have hnx : ¬x.2.arrivalTime ≤ t := fun hle =>
      hany (List.any_eq_true.mpr ⟨x, hx, by simpa using hle⟩)
    exact le_of_lt (hxe ▸ lt_of_not_le hnx)

theorem npRun_chain (key : ProcessInput → ℚ × ℚ) :
    ∀ (pending : List (ℕ × ProcessInput)) (t : ℚ),
      (∀ x ∈ pending, 0 < x.2.burstTime) → SlicesChain t (npRun key pending t) := by
  intro pending t
  induction pending, t using npRun.induct key with
  | case1 pending t t1 hnone =>
    intro _
    have hpend : pending = [] := by
      by_contra hne
      obtain ⟨x, hx, hxt⟩ := npReady_exists t hne
      have hxm : x ∈ pending.filter fun y => decide (y.2.arrivalTime ≤ t1) := by
        simp only [List.mem_filter]
        exact ⟨hx, by simpa using hxt⟩
      rw [pickBy_eq_none.mp hnone] at hxm
      simp at hxm
    subst hpend
    rw [npRun_nil]
    trivial
  | case2 pending t t1 c hsome ih =>
    intro hpos
    have hcmem : c ∈ pending := List.mem_of_mem_filter (pickBy_mem hsome)
    have hne : pending ≠ [] := fun h => by rw [h] at hcmem; cases hcmem
    have hrun : npRun key pending t =
        ⟨c.1, t1, t1 + c.2.burstTime⟩ ::
          npRun key (pending.filter fun x => x.1 ≠ c.1) (t1 + c.2.burstTime) := by
      rw [npRun]
      rw [show npStepTime pending t = t1 from rfl, hsome]
    rw [hrun]
    refine ⟨npStepTime_ge t hne, lt_add_of_pos_right _ (hpos c hcmem), ?_⟩
    exact ih fun x hx => hpos x (List.mem_of_mem_filter hx)


/-! ## Work conservation for Round-Robin -/

theorem sliceSum_cons_mk (j : ℕ) (a b : ℚ) (i : ℕ) (l : List Slice) :
    sliceSum i (⟨j, a, b⟩ :: l) = (if j = i then b - a else 0) + sliceSum i l := by
  by_cases h : j = i <;> simp [sliceSum, h]

/-- Remaining work of process `i` inside a Round-Robin queue. -/
def qpart (i : ℕ) (l : List RRItem) : ℚ :=
  ((l.filter fun x => x.idx = i).map fun x => x.remaining).sum

/-- Outstanding work of process `i` among not-yet-admitted arrivals. -/
def fpart (i : ℕ) (l : List Arrival) : ℚ :=
  ((l.filter fun a => a.idx = i).map fun a => a.proc.burstTime).sum

theorem qpart_nil (i : ℕ) : qpart i [] = 0 := rfl

theorem fpart_nil (i : ℕ) : fpart i [] = 0 := rfl

theorem qpart_cons (i : ℕ) (x : RRItem) (l : List RRItem) :
    qpart i (x :: l) = (if x.idx = i then x.remaining else 0) + qpart i l := by
  by_cases h : x.idx = i <;> simp [qpart, h]

theorem qpart_append (i : ℕ) (l1 l2 : List RRItem) :
    qpart i (l1 ++ l2) = qpart i l1 + qpart i l2 := by
  simp [qpart]

theorem qpart_map_toItem (i : ℕ) (l : List Arrival) :
    qpart i (l.map toItem) = fpart i l := by
  induction l with
  | nil => rfl
  | cons a l ih =>
    by_cases h : a.idx = i <;>
      simp [qpart, fpart, toItem, h] at ih ⊢ <;> rw [← ih] <;> rfl

theorem fpart_append (i : ℕ) (l1 l2 : List Arrival) :
    fpart i (l1 ++ l2) = fpart i l1 + fpart i l2 := by
  simp [fpart]

theorem fpart_split (i : ℕ) (p : Arrival → Bool) (l : List Arrival) :
    fpart i (l.takeWhile p) + fpart i (l.dropWhile p) = fpart i l := by
  rw [← fpart_append, List.takeWhile_append_dropWhile]

theorem qpart_single_mk (i j : ℕ) (p : ProcessInput) (r : ℚ) (h : 0 < r) :
    qpart i [⟨j, p, r, h⟩] = if j = i then r else 0 := by
  by_cases hji : j = i <;> simp [qpart, hji]

theorem rrRun_sliceSum (q : ℚ) (hq : 0 < q) :
    ∀ (queue : List RRItem) (future : List Arrival) (t : ℚ),
      ∀ i, sliceSum i (rrRun q hq queue future t) = qpart i queue + fpart i future := by
  intro queue future t
  induction queue, future, t using rrRun.induct q hq with
  | case1 queue future t arrived future1 hq1 hft =>
    intro i
    rw [rrRun_step_done hq1 hft]
    obtain ⟨hqe, hae⟩ := List.append_eq_nil.mp hq1
    have harr : future.takeWhile (fun a => decide (a.proc.arrivalTime ≤ t)) = [] :=
      List.map_eq_nil_iff.mp hae
    have hfut : future = [] := by
      have hsp := List.takeWhile_append_dropWhile
        (p := fun a => decide (a.proc.arrivalTime ≤ t)) (l := future)
      rw [harr] at hsp
      rw [← hsp]
      rw [show future.dropWhile (fun a => decide (a.proc.arrivalTime ≤ t)) = [] from hft]
      rfl
    rw [hqe, hfut]
    simp [sliceSum_nil, qpart_nil, fpart_nil]
  | case2 queue future t arrived future1 hq1 f tail hft ih =>
    intro i
    obtain ⟨hqe, hae⟩ := List.append_eq_nil.mp hq1
    have harr : future.takeWhile (fun a => decide (a.proc.arrivalTime ≤ t)) = [] :=
      List.map_eq_nil_iff.mp hae
    have hfeq : future.dropWhile (fun a => decide (a.proc.arrivalTime ≤ t)) = future := by
      conv_rhs =>
        rw [← List.takeWhile_append_dropWhile
          (p := fun a => decide (a.proc.arrivalTime ≤ t)) (l := future)]
      rw [harr, List.nil_append]
    rw [rrRun_step_idle hq1 hft, ih i, hqe]
    exact congrArg (fun l => qpart i [] + fpart i l) hfeq
  | case3 queue future t arrived future1 c restQ hq1 hrem ih =>
    intro i
    rw [rrRun_step_complete hq1 hrem, sliceSum_cons_mk, ih i]
    have eA := congrArg (qpart i) hq1
    rw [qpart_append, qpart_map_toItem, qpart_cons] at eA
    have eD := congrArg (fpart i) (List.takeWhile_append_dropWhile
      (p := fun a => decide (a.proc.arrivalTime ≤ t)) (l := future))
    rw [fpart_append] at eD
    by_cases hci : c.idx = i
    · rw [if_pos hci] at eA ⊢
      linarith
    · rw [if_neg hci] at eA ⊢
      linarith
  | case4 queue future t arrived future1 c restQ hq1 hrem arrived2 future2 ih =>
    intro i
    rw [rrRun_step_requeue hq1 hrem, sliceSum_cons_mk, ih i,
      qpart_append, qpart_append, qpart_map_toItem,
      qpart_single_mk i c.idx c.proc (c.remaining - q)
        (by simpa using sub_pos.mpr (lt_of_not_le hrem))]
    have eA := congrArg (qpart i) hq1
    rw [qpart_append, qpart_map_toItem, qpart_cons] at eA
    have eD := congrArg (fpart i) (List.takeWhile_append_dropWhile
      (p := fun a => decide (a.proc.arrivalTime ≤ t)) (l := future))
    rw [fpart_append] at eD
    have eE := congrArg (fpart i) (List.takeWhile_append_dropWhile
      (p := fun a => decide (a.proc.arrivalTime ≤ t + q))
      (l := future.dropWhile fun a => decide (a.proc.arrivalTime ≤ t)))
    rw [fpart_append] at eE
    by_cases hci : c.idx = i
    · rw [if_pos hci] at eA ⊢
      rw [if_pos hci]
      linarith
    · rw [if_neg hci] at eA ⊢
      rw [if_neg hci]
      linarith

theorem rrRun_chain (q : ℚ) (hq : 0 < q) :
    ∀ (queue : List RRItem) (future : List Arrival) (t : ℚ),
      SlicesChain t (rrRun q hq queue future t) := by
  intro queue future t
  induction queue, future, t using rrRun.induct q hq with
  | case1 queue future t arrived future1 hq1 hft =>
    rw [rrRun_step_done hq1 hft]
    trivial
  | case2 queue future t arrived future1 hq1 f tail hft ih =>
    rw [rrRun_step_idle hq1 hft]
    obtain ⟨hqe, hae⟩ := List.append_eq_nil.mp hq1
    have harr : future.takeWhile (fun a => decide (a.proc.arrivalTime ≤ t)) = [] :=
      List.map_eq_nil_iff.mp hae
    have hfeq : future.dropWhile (fun a => decide (a.proc.arrivalTime ≤ t)) = future := by
      conv_rhs =>
        rw [← List.takeWhile_append_dropWhile
          (p := fun a => decide (a.proc.arrivalTime ≤ t)) (l := future)]
      rw [harr, List.nil_append]
    have hfl : future = f :: tail := by
      rw [← hfeq]
      exact hft
    have htf : t < f.proc.arrivalTime := by
      rw [hfl, List.takeWhile_cons] at harr
      by_contra hcon
      push_neg at hcon
      simp [hcon] at harr
    exact slicesChain_weaken (le_of_lt htf) ih
  | case3 queue future t arrived future1 c restQ hq1 hrem ih =>
    rw [rrRun_step_complete hq1 hrem]
    exact ⟨le_refl t, lt_add_of_pos_right t c.pos, ih⟩
  | case4 queue future t arrived future1 c restQ hq1 hrem arrived2 future2 ih =>
    rw [rrRun_step_requeue hq1 hrem]
    exact ⟨le_refl t, lt_add_of_pos_right t hq, ih⟩


/-! ## Hybrid-AI invariants -/

theorem hybridRun_step_done {ready : List HItem} {future : List Arrival} {t : ℚ}
    (h1 : pickBy hLt
      (ready ++ (future.takeWhile fun a => a.proc.arrivalTime ≤ t).map toHItem) = none)
    (h2 : future.dropWhile (fun a => a.proc.arrivalTime ≤ t) = []) :
    hybridRun ready future t = [] := by
  rw [hybridRun]
  split
  · split
    · rfl
    · rename_i f tl hft
      rw [h2] at hft
      cases hft
  · rename_i c hpick
    rw [h1] at hpick
    cases hpick

theorem hybridRun_step_idle {ready : List HItem} {future : List Arrival} {t : ℚ}
    {f : Arrival} {tl : List Arrival}
    (h1 : pickBy hLt
      (ready ++ (future.takeWhile fun a => a.proc.arrivalTime ≤ t).map toHItem) = none)
    (h2 : future.dropWhile (fun a => a.proc.arrivalTime ≤ t) = f :: tl) :
    hybridRun ready future t =
      hybridRun [] (future.dropWhile fun a => a.proc.arrivalTime ≤ t)
        f.proc.arrivalTime := by
  rw [hybridRun]
  split
  · split
    · rename_i hft
      rw [h2] at hft
      cases hft
    · rename_i g tl2 hft
      rw [h2] at hft
      cases hft
      rfl
  · rename_i c hpick
    rw [h1] at hpick
    cases hpick

theorem hybridRun_step_complete {ready : List HItem} {future : List Arrival} {t : ℚ}
    {c : HItem}
    (h1 : pickBy hLt
      (ready ++ (future.takeWhile fun a => a.proc.arrivalTime ≤ t).map toHItem) = some c)
    (h2 : c.remaining ≤ (predictOne c.proc).predictedQuantum) :
    hybridRun ready future t =
      ⟨c.idx, t, t + c.remaining⟩ ::
        hybridRun
          ((ready ++ (future.takeWhile fun a => a.proc.arrivalTime ≤ t).map toHItem).filter
            fun x => x.idx ≠ c.idx)
          (future.dropWhile fun a => a.proc.arrivalTime ≤ t) (t + c.remaining) := by
  rw [hybridRun]
  split
  · rename_i hpick
    rw [h1] at hpick
    cases hpick
  · rename_i c2 hpick
    rw [h1] at hpick
    cases hpick
    rw [dif_pos h2]

theorem hybridRun_step_requeue {ready : List HItem} {future : List Arrival} {t : ℚ}
    {c : HItem}
    (h1 : pickBy hLt
      (ready ++ (future.takeWhile fun a => a.proc.arrivalTime ≤ t).map toHItem) = some c)
    (h2 : ¬c.remaining ≤ (predictOne c.proc).predictedQuantum) :
    hybridRun ready future t =
      ⟨c.idx, t, t + (predictOne c.proc).predictedQuantum⟩ ::
        hybridRun
          (((ready ++ (future.takeWhile fun a => a.proc.arrivalTime ≤ t).map toHItem).filter
              fun x => x.idx ≠ c.idx) ++
            [⟨c.idx, c.proc, c.remaining - (predictOne c.proc).predictedQuantum,
              by simpa using sub_pos.mpr (lt_of_not_le h2)⟩])
          (future.dropWhile fun a => a.proc.arrivalTime ≤ t)
          (t + (predictOne c.proc).predictedQuantum) := by
  rw [hybridRun]
  split
  · rename_i hpick
    rw [h1] at hpick
    cases hpick
  · rename_i c2 hpick
    rw [h1] at hpick
    cases hpick
    rw [dif_neg h2]

theorem hybridRun_chain :
    ∀ (ready : List HItem) (future : List Arrival) (t : ℚ),
      SlicesChain t (hybridRun ready future t) := by
  intro ready future t
  induction ready, future, t using hybridRun.induct with
  | case1 ready future t arrived future1 hpick hft =>
    rw [hybridRun_step_done hpick hft]
    trivial
  | case2 ready future t arrived future1 hpick f tail hft ih =>
    rw [hybridRun_step_idle hpick hft]
    obtain ⟨hre, hae⟩ := List.append_eq_nil.mp (pickBy_eq_none.mp hpick)
    have harr : future.takeWhile (fun a => decide (a.proc.arrivalTime ≤ t)) = [] :=
      List.map_eq_nil_iff.mp hae
    have hfeq : future.dropWhile (fun a => decide (a.proc.arrivalTime ≤ t)) = future := by
      conv_rhs =>
        rw [← List.takeWhile_append_dropWhile
          (p := fun a => decide (a.proc.arrivalTime ≤ t)) (l := future)]
      rw [harr, List.nil_append]
    have hfl : future = f :: tail := by
      rw [← hfeq]
      exact hft
    have htf : t < f.proc.arrivalTime := by
      rw [hfl, List.takeWhile_cons] at harr
      by_contra hcon
      push_neg at hcon
      simp [hcon] at harr
    exact slicesChain_weaken (le_of_lt htf) ih
  | case3 ready future t arrived future1 c hpick pq rest hrem ih =>
    rw [hybridRun_step_complete hpick hrem]
    exact ⟨le_refl t, lt_add_of_pos_right t c.pos, ih⟩
  | case4 ready future t arrived future1 c hpick pq rest hrem ih =>
    rw [hybridRun_step_requeue hpick hrem]
    exact ⟨le_refl t, lt_add_of_pos_right t (predictedQuantum_pos c.proc), ih⟩

theorem admitIdx_eq (ready : List HItem) (future : List Arrival) (t : ℚ) :
    (ready ++ (future.takeWhile fun a => a.proc.arrivalTime ≤ t).map toHItem).map
        HItem.idx ++
      (future.dropWhile fun a => a.proc.arrivalTime ≤ t).map Arrival.idx =
    ready.map HItem.idx ++ future.map Arrival.idx := by
  rw [List.map_append, List.map_map]
  conv_rhs =>
    rw [← List.takeWhile_append_dropWhile
      (p := fun a => decide (a.proc.arrivalTime ≤ t)) (l := future)]
  rw [List.map_append, List.append_assoc]
  rfl

theorem hybridRun_sliceSum :
    ∀ (ready : List HItem) (future : List Arrival) (t : ℚ),
      (ready.map HItem.idx ++ future.map Arrival.idx).Nodup →
      (∀ x ∈ ready, sliceSum x.idx (hybridRun ready future t) = x.remaining) ∧
      (∀ a ∈ future, sliceSum a.idx (hybridRun ready future t) = a.proc.burstTime) ∧
      (∀ i, i ∉ ready.map HItem.idx → i ∉ future.map Arrival.idx →
        sliceSum i (hybridRun ready future t) = 0) := by
  intro ready future t
  induction ready, future, t using hybridRun.induct with
  | case1 ready future t arrived future1 hpick hft =>
    intro hnd
    rw [hybridRun_step_done hpick hft]
    obtain ⟨hre, hae⟩ := List.append_eq_nil.mp (pickBy_eq_none.mp hpick)
    have harr : future.takeWhile (fun a => decide (a.proc.arrivalTime ≤ t)) = [] :=
      List.map_eq_nil_iff.mp hae
    have hfut : future = [] := by
      have hsp := List.takeWhile_append_dropWhile
        (p := fun a => decide (a.proc.arrivalTime ≤ t)) (l := future)
      rw [harr] at hsp
      rw [← hsp, show future.dropWhile (fun a => decide (a.proc.arrivalTime ≤ t)) = []
        from hft]
      rfl
    subst hfut
    refine ⟨?_, ?_, fun i _ _ => sliceSum_nil i⟩
    · intro x hx
      rw [hre] at hx
      cases hx
    · intro a ha
      cases ha
  | case2 ready future t arrived future1 hpick f tail hft ih =>
    intro hnd
    rw [hybridRun_step_idle hpick hft]
    obtain ⟨hre, hae⟩ := List.append_eq_nil.mp (pickBy_eq_none.mp hpick)
    have harr : future.takeWhile (fun a => decide (a.proc.arrivalTime ≤ t)) = [] :=
      List.map_eq_nil_iff.mp hae
    have hfeq : future.dropWhile (fun a => decide (a.proc.arrivalTime ≤ t)) = future := by
      conv_rhs =>
        rw [← List.takeWhile_append_dropWhile
          (p := fun a => decide (a.proc.arrivalTime ≤ t)) (l := future)]
      rw [harr, List.nil_append]
    have hnd2 : (([] : List HItem).map HItem.idx ++
        (future.dropWhile fun a => decide (a.proc.arrivalTime ≤ t)).map
          Arrival.idx).Nodup := by
      rw [hfeq]
      simp only [List.map_nil, List.nil_append]
      rw [hre] at hnd
      simpa using hnd
    obtain ⟨ihA, ihB, ihC⟩ := ih hnd2
    refine ⟨?_, ?_, ?_⟩
    · intro x hx
      rw [hre] at hx
      cases hx
    · intro a ha
      refine ihB a ?_
      show a ∈ future.dropWhile fun y => decide (y.proc.arrivalTime ≤ t)
      rw [hfeq]
      exact ha
    · intro i hir hif
      refine ihC i (by simp) ?_
      show i ∉ (future.dropWhile fun y => decide (y.proc.arrivalTime ≤ t)).map Arrival.idx
      rw [hfeq]
      exact hif
  | case3 ready future t arrived future1 c hpick pq rest hrem ih =>
    intro hnd
    rw [hybridRun_step_complete hpick hrem]
    have hnd1 : ((ready ++ (future.takeWhile fun a =>
        decide (a.proc.arrivalTime ≤ t)).map toHItem).map HItem.idx ++
        (future.dropWhile fun a => decide (a.proc.arrivalTime ≤ t)).map
          Arrival.idx).Nodup := by
      rw [admitIdx_eq]
      exact hnd
    obtain ⟨hndAll, hndF1, hdisj⟩ := List.nodup_append.mp hnd1
    have hcAll : c ∈ ready ++ (future.takeWhile fun a =>
        decide (a.proc.arrivalTime ≤ t)).map toHItem := pickBy_mem hpick
    have hsubl : List.Sublist
        (((ready ++ (future.takeWhile fun a =>
          decide (a.proc.arrivalTime ≤ t)).map toHItem).filter
            fun x => x.idx ≠ c.idx).map HItem.idx)
        ((ready ++ (future.takeWhile fun a =>
          decide (a.proc.arrivalTime ≤ t)).map toHItem).map HItem.idx) :=
      (List.filter_sublist _).map _
    have hndNew : (((ready ++ (future.takeWhile fun a =>
        decide (a.proc.arrivalTime ≤ t)).map toHItem).filter
          fun x => x.idx ≠ c.idx).map HItem.idx ++
        (future.dropWhile fun a => decide (a.proc.arrivalTime ≤ t)).map
          Arrival.idx).Nodup :=
      (hsubl.append_right _).nodup hnd1
    obtain ⟨ihA, ihB, ihC⟩ := ih hndNew
    have hrestNo : c.idx ∉ ((ready ++ (future.takeWhile fun a =>
        decide (a.proc.arrivalTime ≤ t)).map toHItem).filter
          fun x => x.idx ≠ c.idx).map HItem.idx := by
      simp only [List.mem_map, List.mem_filter, not_exists, not_and]
      rintro y ⟨_, hy2⟩ hy3
      simp only [decide_eq_true_eq] at hy2
      exact hy2 hy3
    have hfutNo : c.idx ∉ (future.dropWhile fun a =>
        decide (a.proc.arrivalTime ≤ t)).map Arrival.idx :=
      fun hin => hdisj (List.mem_map_of_mem _ hcAll) hin
    have harrsub : (future.takeWhile fun y => decide (y.proc.arrivalTime ≤ t)).map
        Arrival.idx ⊆ future.map Arrival.idx :=
      ((List.takeWhile_sublist _).map _).subset
    have hfutsub : (future.dropWhile fun y => decide (y.proc.arrivalTime ≤ t)).map
        Arrival.idx ⊆ future.map Arrival.idx :=
      ((List.dropWhile_sublist _).map _).subset
    refine ⟨?_, ?_, ?_⟩
    · intro x hx
      have hxall : x ∈ ready ++ (future.takeWhile fun a =>
          decide (a.proc.arrivalTime ≤ t)).map toHItem := List.mem_append_left _ hx
      rw [sliceSum_cons_mk]
      by_cases hxc : x.idx = c.idx
      · have hxec : x = c := List.inj_on_of_nodup_map hndAll hxall hcAll hxc
        rw [hxec, if_pos rfl, ihC c.idx hrestNo hfutNo]
        ring
      · rw [if_neg fun hh => hxc hh.symm, zero_add]
        exact ihA x (List.mem_filter.mpr ⟨hxall, by simpa using hxc⟩)
    · intro a ha
      have ha2 : a ∈ (future.takeWhile fun y => decide (y.proc.arrivalTime ≤ t)) ++
          (future.dropWhile fun y => decide (y.proc.arrivalTime ≤ t)) := by
        rw [List.takeWhile_append_dropWhile]
        exact ha
      rw [sliceSum_cons_mk]
      rcases List.mem_append.mp ha2 with haa | haf
      · have hmem : toHItem a ∈ ready ++ (future.takeWhile fun y =>
            decide (y.proc.arrivalTime ≤ t)).map toHItem :=
          List.mem_append_right _ (List.mem_map_of_mem _ haa)
        by_cases hac : a.idx = c.idx
        · have heq : toHItem a = c :=
            List.inj_on_of_nodup_map hndAll hmem hcAll hac
          have hb : c.remaining = a.proc.burstTime := by rw [← heq]; rfl
          have h0 := ihC a.idx (hac ▸ hrestNo) (hac ▸ hfutNo)
          rw [if_pos hac.symm, h0]
          linarith
        · have h0 := ihA (toHItem a)
            (List.mem_filter.mpr ⟨hmem, by simpa using hac⟩)
          rw [if_neg fun hh => hac hh.symm, zero_add]
          exact h0
      · have hidxf1 : a.idx ∈ (future.dropWhile fun y =>
            decide (y.proc.arrivalTime ≤ t)).map Arrival.idx :=
          List.mem_map_of_mem _ haf
        have hac : ¬c.idx = a.idx := fun hh => hfutNo (hh ▸ hidxf1)
        rw [if_neg hac, zero_add]
        exact ihB a haf
    · intro i hir hif
      have hci : ¬c.idx = i := by
        intro hh
        subst hh
        rcases List.mem_append.mp hcAll with hcr | hca
        · exact hir (List.mem_map_of_mem _ hcr)
        · obtain ⟨y, hy1, hy2⟩ := List.mem_map.mp hca
          have hyi : y.idx = c.idx := by rw [← hy2]; rfl
          exact hif (harrsub (hyi ▸ List.mem_map_of_mem _ hy1))
      rw [sliceSum_cons_mk, if_neg hci, zero_add]
      refine ihC i ?_ fun hin => hif (hfutsub hin)
      intro hin
      have hin2 : i ∈ (ready ++ (future.takeWhile fun a =>
          decide (a.proc.arrivalTime ≤ t)).map toHItem).map HItem.idx :=
        hsubl.subset hin
      rw [List.map_append] at hin2
      rcases List.mem_append.mp hin2 with h | h
      · exact hir h
      · rw [List.map_map] at h
        obtain ⟨y, hy1, hy2⟩ := List.mem_map.mp h
        exact hif (harrsub (hy2 ▸ List.mem_map_of_mem _ hy1))
  | case4 ready future t arrived future1 c hpick pq rest hrem ih =>
    intro hnd
    rw [hybridRun_step_requeue hpick hrem]
    have hnd1 : ((ready ++ (future.takeWhile fun a =>
        decide (a.proc.arrivalTime ≤ t)).map toHItem).map HItem.idx ++
        (future.dropWhile fun a => decide (a.proc.arrivalTime ≤ t)).map
          Arrival.idx).Nodup := by
      rw [admitIdx_eq]
      exact hnd
    obtain ⟨hndAll, hndF1, hdisj⟩ := List.nodup_append.mp hnd1
    have hcAll : c ∈ ready ++ (future.takeWhile fun a =>
        decide (a.proc.arrivalTime ≤ t)).map toHItem := pickBy_mem hpick
    have hsubl : List.Sublist
        (((ready ++ (future.takeWhile fun a =>
          decide (a.proc.arrivalTime ≤ t)).map toHItem).filter
            fun x => x.idx ≠ c.idx).map HItem.idx)
        ((ready ++ (future.takeWhile fun a =>
          decide (a.proc.arrivalTime ≤ t)).map toHItem).map HItem.idx) :=
      (List.filter_sublist _).map _
    have hndNew : (((ready ++ (future.takeWhile fun a =>
        decide (a.proc.arrivalTime ≤ t)).map toHItem).filter
          fun x => x.idx ≠ c.idx).map HItem.idx ++
        (future.dropWhile fun a => decide (a.proc.arrivalTime ≤ t)).map
          Arrival.idx).Nodup :=
      (hsubl.append_right _).nodup hnd1
    have hrestNo : c.idx ∉ ((ready ++ (future.takeWhile fun a =>
        decide (a.proc.arrivalTime ≤ t)).map toHItem).filter
          fun x => x.idx ≠ c.idx).map HItem.idx := by
      simp only [List.mem_map, List.mem_filter, not_exists, not_and]
      rintro y ⟨_, hy2⟩ hy3
      simp only [decide_eq_true_eq] at hy2
      exact hy2 hy3
    have hfutNo : c.idx ∉ (future.dropWhile fun a =>
        decide (a.proc.arrivalTime ≤ t)).map Arrival.idx :=
      fun hin => hdisj (List.mem_map_of_mem _ hcAll) hin
    have harrsub : (future.takeWhile fun y => decide (y.proc.arrivalTime ≤ t)).map
        Arrival.idx ⊆ future.map Arrival.idx :=
      ((List.takeWhile_sublist _).map _).subset
    have hfutsub : (future.dropWhile fun y => decide (y.proc.arrivalTime ≤ t)).map
        Arrival.idx ⊆ future.map Arrival.idx :=
      ((List.dropWhile_sublist _).map _).subset
    have hposr : 0 < c.remaining - (predictOne c.proc).predictedQuantum := by
      simpa using sub_pos.mpr (lt_of_not_le hrem)
    have hndNew4 : ((((ready ++ (future.takeWhile fun a =>
        decide (a.proc.arrivalTime ≤ t)).map toHItem).filter
          (fun x : HItem => x.idx ≠ c.idx)) ++
        ([⟨c.idx, c.proc, c.remaining - (predictOne c.proc).predictedQuantum,
          hposr⟩] : List HItem)).map HItem.idx ++
        (future.dropWhile fun a => decide (a.proc.arrivalTime ≤ t)).map
          Arrival.idx).Nodup := by
      rw [List.map_append, List.append_assoc]
      refine List.nodup_middle.mpr (List.nodup_cons.mpr ⟨?_, hndNew⟩)
      simp only [List.mem_append, not_or]
      exact ⟨hrestNo, hfutNo⟩
    obtain ⟨ihA, ihB, ihC⟩ := ih hndNew4
    have hc2mem : (⟨c.idx, c.proc,
        c.remaining - (predictOne c.proc).predictedQuantum, hposr⟩ : HItem) ∈
        ((ready ++ (future.takeWhile fun a =>
          decide (a.proc.arrivalTime ≤ t)).map toHItem).filter
            (fun x : HItem => x.idx ≠ c.idx)) ++
          [⟨c.idx, c.proc, c.remaining - (predictOne c.proc).predictedQuantum,
            hposr⟩] :=
      List.mem_append_right _ (List.mem_singleton_self _)
    have hrec := ihA _ hc2mem
    refine ⟨?_, ?_, ?_⟩
    · intro x hx
      have hxall : x ∈ ready ++ (future.takeWhile fun a =>
          decide (a.proc.arrivalTime ≤ t)).map toHItem := List.mem_append_left _ hx
      rw [sliceSum_cons_mk]
      by_cases hxc : x.idx = c.idx
      · have hxec : x = c := List.inj_on_of_nodup_map hndAll hxall hcAll hxc
        rw [hxec, if_pos rfl]
        rw [show ((⟨c.idx, c.proc,
          c.remaining - (predictOne c.proc).predictedQuantum, hposr⟩ : HItem)).idx
          = c.idx from rfl] at hrec
        rw [hrec]
        ring
      · rw [if_neg fun hh => hxc hh.symm, zero_add]
        exact ihA x (List.mem_append_left _
          (List.mem_filter.mpr ⟨hxall, by simpa using hxc⟩))
    · intro a ha
      have ha2 : a ∈ (future.takeWhile fun y => decide (y.proc.arrivalTime ≤ t)) ++
          (future.dropWhile fun y => decide (y.proc.arrivalTime ≤ t)) := by
        rw [List.takeWhile_append_dropWhile]
        exact ha
      rw [sliceSum_cons_mk]
      rcases List.mem_append.mp ha2 with haa | haf
      · have hmem : toHItem a ∈ ready ++ (future.takeWhile fun y =>
            decide (y.proc.arrivalTime ≤ t)).map toHItem :=
          List.mem_append_right _ (List.mem_map_of_mem _ haa)
        by_cases hac : a.idx = c.idx
        · have heq : toHItem a = c :=
            List.inj_on_of_nodup_map hndAll hmem hcAll hac
          have hb : c.remaining = a.proc.burstTime := by rw [← heq]; rfl
          have h0 : sliceSum a.idx (hybridRun
              (((ready ++ (future.takeWhile fun y =>
                decide (y.proc.arrivalTime ≤ t)).map toHItem).filter
                  (fun x : HItem => x.idx ≠ c.idx)) ++
                [⟨c.idx, c.proc,
                  c.remaining - (predictOne c.proc).predictedQuantum, hposr⟩])
              (future.dropWhile fun y => decide (y.proc.arrivalTime ≤ t))
              (t + (predictOne c.proc).predictedQuantum)) =
              c.remaining - (predictOne c.proc).predictedQuantum := by
            rw [hac]
            exact hrec
          rw [if_pos hac.symm, h0]
          linarith
        · have h0 := ihA (toHItem a) (List.mem_append_left _
            (List.mem_filter.mpr ⟨hmem, by simpa using hac⟩))
          rw [if_neg fun hh => hac hh.symm, zero_add]
          exact h0
      · have hidxf1 : a.idx ∈ (future.dropWhile fun y =>
            decide (y.proc.arrivalTime ≤ t)).map Arrival.idx :=
          List.mem_map_of_mem _ haf
        have hac : ¬c.idx = a.idx := fun hh => hfutNo (hh ▸ hidxf1)
        rw [if_neg hac, zero_add]
        exact ihB a haf
    · intro i hir hif
      have hci : ¬c.idx = i := by
        intro hh
        subst hh
        rcases List.mem_append.mp hcAll with hcr | hca
        · exact hir (List.mem_map_of_mem _ hcr)
        · obtain ⟨y, hy1, hy2⟩ := List.mem_map.mp hca
          have hyi : y.idx = c.idx := by rw [← hy2]; rfl
          exact hif (harrsub (hyi ▸ List.mem_map_of_mem _ hy1))
      rw [sliceSum_cons_mk, if_neg hci, zero_add]
      refine ihC i ?_ fun hin => hif (hfutsub hin)
      intro hin
      rw [List.map_append] at hin
      rcases List.mem_append.mp hin with hin1 | hin1
      · have hin2 : i ∈ (ready ++ (future.takeWhile fun a =>
            decide (a.proc.arrivalTime ≤ t)).map toHItem).map HItem.idx :=
          hsubl.subset hin1
        rw [List.map_append] at hin2
        rcases List.mem_append.mp hin2 with h | h
        · exact hir h
        · rw [List.map_map] at h
          obtain ⟨y, hy1, hy2⟩ := List.mem_map.mp h
          exact hif (harrsub (hy2 ▸ List.mem_map_of_mem _ hy1))
      · simp only [List.map_cons, List.map_nil, List.mem_singleton] at hin1
        exact hci hin1.symm


/-! ## Bookkeeping for the initial arrival lists -/

theorem fpart_cons (i : ℕ) (a : Arrival) (l : List Arrival) :
    fpart i (a :: l) = (if a.idx = i then a.proc.burstTime else 0) + fpart i l := by
  by_cases h : a.idx = i <;> simp [fpart, h]

theorem insertArrival_perm (x : Arrival) :
    ∀ l : List Arrival, List.Perm (insertArrival x l) (x :: l) := by
  intro l
  induction l with
  | nil => rfl
  | cons y ys ih =>
    rw [insertArrival]
    by_cases h : y.proc.arrivalTime < x.proc.arrivalTime
    · rw [if_pos h]
      exact (ih.cons y).trans (List.Perm.swap x y ys)
    · rw [if_neg h]

theorem sortArrivals_perm : ∀ l : List Arrival, List.Perm (sortArrivals l) l := by
  intro l
  induction l with
  | nil => rfl
  | cons x xs ih =>
    rw [sortArrivals]
    exact (insertArrival_perm x (sortArrivals xs)).trans (ih.cons x)

theorem fpart_perm {l1 l2 : List Arrival} (h : List.Perm l1 l2) (i : ℕ) :
    fpart i l1 = fpart i l2 := by
  unfold fpart
  exact ((h.filter _).map _).sum_eq

theorem mkArrivals_fpart :
    ∀ (l : List (ℕ × ProcessInput)) (h : ∀ x ∈ l, 0 < x.2.burstTime),
      List.Pairwise (fun a b => a.1 ≠ b.1) l →
      (∀ x ∈ l, fpart x.1 (mkArrivals l h) = x.2.burstTime) ∧
      (∀ i, (∀ x ∈ l, x.1 ≠ i) → fpart i (mkArrivals l h) = 0) := by
  intro l
  induction l with
  | nil =>
    intro h _
    exact ⟨fun x hx => absurd hx (List.not_mem_nil x), fun i _ => rfl⟩
  | cons y ys ih =>
    intro h hpair
    obtain ⟨ihA, ihB⟩ := ih _ (List.pairwise_cons.mp hpair).2
    constructor
    · intro x hx
      rcases List.mem_cons.mp hx with rfl | hx
      · rw [mkArrivals, fpart_cons, if_pos rfl,
          ihB x.1 fun z hz => ((List.pairwise_cons.mp hpair).1 z hz).symm]
        ring
      · rw [mkArrivals, fpart_cons,
          if_neg (show ¬y.1 = x.1 from (List.pairwise_cons.mp hpair).1 x hx),
          zero_add]
        exact ihA x hx
    · intro i hi
      rw [mkArrivals, fpart_cons,
        if_neg (hi y (List.mem_cons_self y ys)), zero_add]
      exact ihB i fun z hz => hi z (List.mem_cons_of_mem y hz)

theorem mkArrivals_idx :
    ∀ (l : List (ℕ × ProcessInput)) (h : ∀ x ∈ l, 0 < x.2.burstTime),
      (mkArrivals l h).map Arrival.idx = l.map Prod.fst := by
  intro l
  induction l with
  | nil => intro h; rfl
  | cons y ys ih =>
    intro h
    rw [mkArrivals, List.map_cons, List.map_cons, ih]

theorem mkArrivals_mem :
    ∀ (l : List (ℕ × ProcessInput)) (h : ∀ x ∈ l, 0 < x.2.burstTime),
      ∀ x ∈ l, ∃ a ∈ mkArrivals l h, a.idx = x.1 ∧ a.proc = x.2 := by
  intro l
  induction l with
  | nil => intro h x hx; cases hx
  | cons y ys ih =>
    intro h x hx
    rcases List.mem_cons.mp hx with rfl | hx
    · exact ⟨_, List.mem_cons_self _ _, rfl, rfl⟩
    · obtain ⟨a, ha1, ha2⟩ := ih _ x hx
      exact ⟨a, List.mem_cons_of_mem _ ha1, ha2⟩

theorem enum_pairwise (ps : List ProcessInput) :
    List.Pairwise (fun a b : ℕ × ProcessInput => a.1 ≠ b.1) ps.enum := by
  have h1 : (ps.enum.map Prod.fst).Nodup := by
    rw [List.enum_map_fst]
    exact List.nodup_range _
  exact List.pairwise_map.mp h1

theorem initArrivals_perm (ps : List ProcessInput)
    (hb : ∀ p ∈ ps, 0 < p.burstTime) :
    List.Perm (initArrivals ps hb)
      (mkArrivals ps.enum fun x hx =>
        hb x.2 (List.getElem?_mem (List.mem_enum_iff_getElem?.mp hx))) :=
  sortArrivals_perm _

theorem initArrivals_idx_nodup (ps : List ProcessInput)
    (hb : ∀ p ∈ ps, 0 < p.burstTime) :
    ((initArrivals ps hb).map Arrival.idx).Nodup := by
  have hp := (initArrivals_perm ps hb).map Arrival.idx
  refine hp.nodup_iff.mpr ?_
  rw [mkArrivals_idx, List.enum_map_fst]
  exact List.nodup_range _

theorem initArrivals_fpart (ps : List ProcessInput)
    (hb : ∀ p ∈ ps, 0 < p.burstTime) :
    ∀ x ∈ ps.enum, fpart x.1 (initArrivals ps hb) = x.2.burstTime := by
  intro x hx
  rw [fpart_perm (initArrivals_perm ps hb)]
  exact (mkArrivals_fpart ps.enum _ (enum_pairwise ps)).1 x hx

theorem initArrivals_mem (ps : List ProcessInput)
    (hb : ∀ p ∈ ps, 0 < p.burstTime) :
    ∀ x ∈ ps.enum, ∃ a ∈ initArrivals ps hb, a.idx = x.1 ∧ a.proc = x.2 := by
  intro x hx
  obtain ⟨a, ha1, ha2⟩ := mkArrivals_mem ps.enum _ x hx
  exact ⟨a, (initArrivals_perm ps hb).mem_iff.mpr ha1, ha2⟩


/-! ## From timelines to SchedulingResults -/

theorem buildResult_processes (alg : SchedulerKey) (ps : List ProcessInput)
    (slices : List Slice) :
    (buildResult alg ps slices).processes =
      ps.enum.map fun x => mkProcessResult x.1 x.2 slices := rfl

theorem mkProcessResult_sliceHistory (i : ℕ) (p : ProcessInput) (slices : List Slice) :
    (mkProcessResult i p slices).sliceHistory = slices.filter fun s => s.idx = i := rfl

theorem buildResult_work (alg : SchedulerKey) (ps : List ProcessInput)
    (slices : List Slice) (h : ∀ x ∈ ps.enum, sliceSum x.1 slices = x.2.burstTime) :
    List.Forall₂
      (fun (pr : ProcessResult) (p : ProcessInput) =>
        ((pr.sliceHistory.map fun s => s.stop - s.start).sum) = p.burstTime)
      (buildResult alg ps slices).processes ps := by
  rw [buildResult_processes]
  refine List.forall₂_iff_get.mpr ⟨by simp, ?_⟩
  intro i h1 h2
  simp only [List.get_eq_getElem, List.getElem_map, List.getElem_enum]
  rw [mkProcessResult_sliceHistory]
  have hmem : (i, ps[i]) ∈ ps.enum := by
    rw [List.mk_mem_enum_iff_getElem?]
    exact List.getElem?_eq_getElem h2
  exact h _ hmem

theorem buildResult_disjoint (alg : SchedulerKey) (ps : List ProcessInput)
    (slices : List Slice) {t0 : ℚ} (hch : SlicesChain t0 slices) :
    ∀ p1 ∈ (buildResult alg ps slices).processes,
      ∀ p2 ∈ (buildResult alg ps slices).processes,
        ∀ s1 ∈ p1.sliceHistory, ∀ s2 ∈ p2.sliceHistory, s1 ≠ s2 →
          s1.stop ≤ s2.start ∨ s2.stop ≤ s1.start := by
  intro p1 hp1 p2 hp2 s1 hs1 s2 hs2 hne
  rw [buildResult_processes] at hp1 hp2
  obtain ⟨x1, _, rfl⟩ := List.mem_map.mp hp1
  obtain ⟨x2, _, rfl⟩ := List.mem_map.mp hp2
  rw [mkProcessResult_sliceHistory] at hs1 hs2
  exact slicesChain_disjoint hch (List.mem_of_mem_filter hs1)
    (List.mem_of_mem_filter hs2) hne

theorem enum_snd_mem {ps : List ProcessInput} {x : ℕ × ProcessInput}
    (hx : x ∈ ps.enum) : x.2 ∈ ps :=
  List.getElem?_mem (List.mem_enum_iff_getElem?.mp hx)

theorem npSlices_work (key : ProcessInput → ℚ × ℚ) (ps : List ProcessInput) :
    ∀ x ∈ ps.enum, sliceSum x.1 (npRun key ps.enum 0) = x.2.burstTime :=
  (npRun_sliceSum key ps.enum 0 (enum_pairwise ps)).1

theorem npSlices_chain (key : ProcessInput → ℚ × ℚ) (ps : List ProcessInput)
    (hb : ∀ p ∈ ps, 0 < p.burstTime) : SlicesChain 0 (npRun key ps.enum 0) :=
  npRun_chain key ps.enum 0 fun x hx => hb x.2 (enum_snd_mem hx)

theorem roundRobinSlices_work (ps : List ProcessInput) (q : ℚ) (hq : 0 < q)
    (hb : ∀ p ∈ ps, 0 < p.burstTime) :
    ∀ x ∈ ps.enum, sliceSum x.1 (roundRobinSlices ps q hq hb) = x.2.burstTime := by
  intro x hx
  unfold roundRobinSlices
  rw [rrRun_sliceSum q hq [] (initArrivals ps hb) 0 x.1, qpart_nil, zero_add]
  exact initArrivals_fpart ps hb x hx

theorem roundRobinSlices_chain (ps : List ProcessInput) (q : ℚ) (hq : 0 < q)
    (hb : ∀ p ∈ ps, 0 < p.burstTime) :
    SlicesChain 0 (roundRobinSlices ps q hq hb) :=
  rrRun_chain q hq [] (initArrivals ps hb) 0

theorem hybridSlices_work (ps : List ProcessInput)
    (hb : ∀ p ∈ ps, 0 < p.burstTime) :
    ∀ x ∈ ps.enum, sliceSum x.1 (hybridSlices ps hb) = x.2.burstTime := by
  intro x hx
  obtain ⟨a, ha, hai, hap⟩ := initArrivals_mem ps hb x hx
  have hnd : (([] : List HItem).map HItem.idx ++
      (initArrivals ps hb).map Arrival.idx).Nodup := by
    simpa using initArrivals_idx_nodup ps hb
  have hB := (hybridRun_sliceSum [] (initArrivals ps hb) 0 hnd).2.1 a ha
  rw [hai, hap] at hB
  exact hB

theorem hybridSlices_chain (ps : List ProcessInput)
    (hb : ∀ p ∈ ps, 0 < p.burstTime) :
    SlicesChain 0 (hybridSlices ps hb) :=
  hybridRun_chain [] (initArrivals ps hb) 0


/-! ## Claim theorems -/

theorem le_clamp (v lo hi : ℚ) (h : lo ≤ hi) : lo ≤ clamp v lo hi :=
  le_min (le_max_right v lo) h

theorem clamp_le (v lo hi : ℚ) : clamp v lo hi ≤ hi := min_le_right _ _

/-- C3: for every valid process the predictor returns exactly
`predictedBurstTime = max(0.1, burstTime × (1 + cpuUtilizationHint −
ioBoundProbability))`, `predictedPriority = round(clamp(priority −
2·cpuUtilizationHint + 2·ioBoundProbability, 1, 10))`, `confidence = 1 −
|cpuUtilizationHint − ioBoundProbability|` lying in [0,1], and
`predictedQuantum = clamp(predictedBurstTime × (0.5 + 0.5·confidence),
0.5, 20)` lying in [0.5, 20]. -/
theorem claim_C3_predictor (p : ProcessInput) (h : validProcess p) :
    (predictOne p).predictedBurstTime =
      max (1/10) (p.burstTime * (1 + p.cpuUtilizationHint - p.ioBoundProbability)) ∧
    (predictOne p).predictedPriority =
      round (clamp (p.priority - 2 * p.cpuUtilizationHint +
        2 * p.ioBoundProbability) 1 10) ∧
    (predictOne p).confidence =
      1 - |p.cpuUtilizationHint - p.ioBoundProbability| ∧
    0 ≤ (predictOne p).confidence ∧ (predictOne p).confidence ≤ 1 ∧
    (predictOne p).predictedQuantum =
      clamp ((predictOne p).predictedBurstTime *
        (1/2 + 1/2 * (predictOne p).confidence)) (1/2) 20 ∧
    1/2 ≤ (predictOne p).predictedQuantum ∧
    (predictOne p).predictedQuantum ≤ 20 := by
  obtain ⟨hb, ha, hp1, hp2, hc0, hc1, hi0, hi1⟩ := h
  have habs : |p.cpuUtilizationHint - p.ioBoundProbability| ≤ 1 :=
    abs_le.mpr ⟨by linarith, by linarith⟩
  have habs0 : 0 ≤ |p.cpuUtilizationHint - p.ioBoundProbability| := abs_nonneg _
  refine ⟨rfl, rfl, rfl, ?_, ?_, rfl, ?_, ?_⟩
  · show (0 : ℚ) ≤ 1 - |p.cpuUtilizationHint - p.ioBoundProbability|
    linarith
  · show (1 : ℚ) - |p.cpuUtilizationHint - p.ioBoundProbability| ≤ 1
    linarith
  · exact le_clamp _ _ _ (by norm_num)
  · exact clamp_le _ _ _

/-- Witness for C3 at the concrete default process. -/
theorem claim_C3_witness :
    validProcess defaultProcess ∧
    ((predictOne defaultProcess).predictedBurstTime =
      max (1/10) (defaultProcess.burstTime * (1 + defaultProcess.cpuUtilizationHint -
        defaultProcess.ioBoundProbability)) ∧
    (predictOne defaultProcess).predictedPriority =
      round (clamp (defaultProcess.priority - 2 * defaultProcess.cpuUtilizationHint +
        2 * defaultProcess.ioBoundProbability) 1 10) ∧
    (predictOne defaultProcess).confidence =
      1 - |defaultProcess.cpuUtilizationHint - defaultProcess.ioBoundProbability| ∧
    0 ≤ (predictOne defaultProcess).confidence ∧
    (predictOne defaultProcess).confidence ≤ 1 ∧
    (predictOne defaultProcess).predictedQuantum =
      clamp ((predictOne defaultProcess).predictedBurstTime *
        (1/2 + 1/2 * (predictOne defaultProcess).confidence)) (1/2) 20 ∧
    1/2 ≤ (predictOne defaultProcess).predictedQuantum ∧
    (predictOne defaultProcess).predictedQuantum ≤ 20) := by
  have hv : validProcess defaultProcess := by
    unfold validProcess defaultProcess
    norm_num
  exact ⟨hv, claim_C3_predictor defaultProcess hv⟩

/-- C4: `predict` and `runSchedulers` fail with `InvalidInput` exactly on
malformed input (empty workload, duplicate ids, out-of-range fields, and
for the aggregator a non-positive quantum), and on failure no partial
result is produced: the unique error value is returned atomically. -/
theorem claim_C4_validation (ps : List ProcessInput) (q : ℚ) :
    ((∃ out, predict ps = Except.ok out) ↔ validWorkload ps) ∧
    ((∃ rs, runSchedulers ps q = Except.ok rs) ↔ validWorkload ps ∧ 0 < q) ∧
    (¬validWorkload ps → predict ps = Except.error SchedError.invalidInput) ∧
    (¬(validWorkload ps ∧ 0 < q) →
      runSchedulers ps q = Except.error SchedError.invalidInput) := by
  unfold predict runSchedulers
  by_cases h1 : validWorkload ps
  · by_cases h2 : 0 < q
    · rw [if_pos h1, dif_pos ⟨h1, h2⟩]
      exact ⟨⟨fun _ => h1, fun _ => ⟨_, rfl⟩⟩, ⟨fun _ => ⟨h1, h2⟩, fun _ => ⟨_, rfl⟩⟩,
        fun hn => absurd h1 hn, fun hn => absurd ⟨h1, h2⟩ hn⟩
    · rw [if_pos h1, dif_neg fun hc => h2 hc.2]
      refine ⟨⟨fun _ => h1, fun _ => ⟨_, rfl⟩⟩, ⟨?_, ?_⟩,
        fun hn => absurd h1 hn, fun _ => rfl⟩
      · rintro ⟨rs, hrs⟩
        exact absurd hrs (by simp)
      · rintro ⟨_, hq2⟩
        exact absurd hq2 h2
  · rw [if_neg h1, dif_neg fun hc => h1 hc.1]
    refine ⟨⟨?_, fun hv => absurd hv h1⟩, ⟨?_, fun hc => absurd hc.1 h1⟩,
      fun _ => rfl, fun _ => rfl⟩
    · rintro ⟨out, hout⟩
      exact absurd hout (by simp)
    · rintro ⟨rs, hrs⟩
      exact absurd hrs (by simp)

/-- C5: on every valid workload and positive quantum the aggregator
returns exactly five results, one per policy, in the fixed order FCFS,
SJF, Priority, Round-Robin, Hybrid-AI. -/
theorem claim_C5_run_order (ps : List ProcessInput) (q : ℚ)
    (hv : validWorkload ps) (hq : 0 < q) :
    ∃ rs, runSchedulers ps q = Except.ok rs ∧ rs.length = 5 ∧
      rs.map SchedulingResult.algorithm =
        [SchedulerKey.fcfs, SchedulerKey.sjf, SchedulerKey.priority,
          SchedulerKey.rr, SchedulerKey.hybridAi] := by
  have heq : runSchedulers ps q = Except.ok
      [buildResult .fcfs ps (fcfsSlices ps),
        buildResult .sjf ps (sjfSlices ps),
        buildResult .priority ps (prioritySlices ps),
        buildResult .rr ps (roundRobinSlices ps q hq (validWorkload_burst_pos hv)),
        buildResult .hybridAi ps (hybridSlices ps (validWorkload_burst_pos hv))] := by
    unfold runSchedulers
    rw [dif_pos ⟨hv, hq⟩]
  exact ⟨_, heq, rfl, rfl⟩

/-- Witness for C5 at a concrete one-process workload and quantum 3. -/
theorem claim_C5_witness :
    validWorkload [defaultProcess] ∧ (0 : ℚ) < 3 ∧
      ∃ rs, runSchedulers [defaultProcess] 3 = Except.ok rs ∧ rs.length = 5 ∧
        rs.map SchedulingResult.algorithm =
          [SchedulerKey.fcfs, SchedulerKey.sjf, SchedulerKey.priority,
            SchedulerKey.rr, SchedulerKey.hybridAi] := by
  have hv : validWorkload [defaultProcess] := by
    unfold validWorkload validProcess defaultProcess
    refine ⟨by simp, by simp, ?_⟩
    intro p hp
    simp only [List.mem_singleton] at hp
    subst hp
    norm_num
  exact ⟨hv, by norm_num, claim_C5_run_order [defaultProcess] 3 hv (by norm_num)⟩

/-- C7: the predictor and the aggregator are deterministic and
idempotent: identical inputs produce identical outputs (purity is
structural in this model: both are functions of their arguments only). -/
theorem claim_C7_deterministic (ps1 ps2 : List ProcessInput) (q1 q2 : ℚ)
    (hps : ps1 = ps2) (hq : q1 = q2) :
    predict ps1 = predict ps2 ∧ runSchedulers ps1 q1 = runSchedulers ps2 q2 := by
  subst hps
  subst hq
  exact ⟨rfl, rfl⟩

/-- Witness for C7 at a concrete workload and quantum. -/
theorem claim_C7_witness :
    ([defaultProcess] : List ProcessInput) = [defaultProcess] ∧ (3 : ℚ) = 3 ∧
      (predict [defaultProcess] = predict [defaultProcess] ∧
        runSchedulers [defaultProcess] 3 = runSchedulers [defaultProcess] 3) :=
  ⟨rfl, rfl, claim_C7_deterministic [defaultProcess] [defaultProcess] 3 3 rfl rfl⟩

/-- C9 (counterexample): an arrival-time edit is stored unclamped, so the
presentation layer can hand the core a negative `arrivalTime`; entering
−1 stores −1, violating the claimed `arrivalTime ≥ 0` clamping. -/
theorem claim_C9_counterexample :
    processTableStoredValue ProcessField.arrivalTime (-1) = -1 ∧
      ¬(0 : ℚ) ≤ processTableStoredValue ProcessField.arrivalTime (-1) := by
  constructor
  · rfl
  · show ¬(0 : ℚ) ≤ -1
    norm_num

/-- C9 (amended): every edited numeric field except `arrivalTime` is
clamped before being stored — burst to [1,60], priority to [1,10], the
two hints to [0,1], and the base quantum to [0.5,20] — while an
`arrivalTime` edit is stored exactly as entered (only the HTML `min`
attribute suggests non-negativity). -/
theorem claim_C9_amended (v : ℚ) :
    processTableStoredValue ProcessField.arrivalTime v = v ∧
    1 ≤ processTableStoredValue ProcessField.burstTime v ∧
    processTableStoredValue ProcessField.burstTime v ≤ 60 ∧
    1 ≤ processTableStoredValue ProcessField.priority v ∧
    processTableStoredValue ProcessField.priority v ≤ 10 ∧
    0 ≤ processTableStoredValue ProcessField.cpuUtilizationHint v ∧
    processTableStoredValue ProcessField.cpuUtilizationHint v ≤ 1 ∧
    0 ≤ processTableStoredValue ProcessField.ioBoundProbability v ∧
    processTableStoredValue ProcessField.ioBoundProbability v ≤ 1 ∧
    1/2 ≤ quantumStoredValue v ∧ quantumStoredValue v ≤ 20 :=
  ⟨rfl,
    le_clamp v 1 60 (by norm_num), clamp_le v 1 60,
    le_clamp v 1 10 (by norm_num), clamp_le v 1 10,
    le_clamp v 0 1 (by norm_num), clamp_le v 0 1,
    le_clamp v 0 1 (by norm_num), clamp_le v 0 1,
    le_clamp v (1/2) 20 (by norm_num), clamp_le v (1/2) 20⟩


/-- C1: for every valid workload and every one of the five policies, the
sum of `(slice.end − slice.start)` over each process's `sliceHistory`
equals that process's declared `burstTime` exactly (work conservation,
against the declared — not predicted — burst). -/
theorem claim_C1_work_conservation (ps : List ProcessInput) (q : ℚ)
    (rs : List SchedulingResult) (hrun : runSchedulers ps q = Except.ok rs) :
    ∀ r ∈ rs,
      List.Forall₂
        (fun (pr : ProcessResult) (p : ProcessInput) =>
          ((pr.sliceHistory.map fun s => s.stop - s.start).sum) = p.burstTime)
        r.processes ps := by
  unfold runSchedulers at hrun
  by_cases h : validWorkload ps ∧ 0 < q
  · rw [dif_pos h] at hrun
    injection hrun with h2
    subst h2
    intro r hr
    have hb := validWorkload_burst_pos h.1
    simp only [List.mem_cons, List.not_mem_nil, or_false] at hr
    rcases hr with rfl | rfl | rfl | rfl | rfl
    · exact buildResult_work _ _ _ (npSlices_work fcfsKey ps)
    · exact buildResult_work _ _ _ (npSlices_work sjfKey ps)
    · exact buildResult_work _ _ _ (npSlices_work priorityKey ps)
    · exact buildResult_work _ _ _ (roundRobinSlices_work ps q h.2 hb)
    · exact buildResult_work _ _ _ (hybridSlices_work ps hb)
  · rw [dif_neg h] at hrun
    simp at hrun

/-- Witness for C1 at a concrete one-process workload and quantum 3. -/
theorem claim_C1_witness :
    ∃ rs, runSchedulers [defaultProcess] 3 = Except.ok rs ∧
      ∀ r ∈ rs,
        List.Forall₂
          (fun (pr : ProcessResult) (p : ProcessInput) =>
            ((pr.sliceHistory.map fun s => s.stop - s.start).sum) = p.burstTime)
          r.processes [defaultProcess] := by
  have hv : validWorkload [defaultProcess] := by
    unfold validWorkload validProcess defaultProcess
    refine ⟨by simp, by simp, ?_⟩
    intro p hp
    simp only [List.mem_singleton] at hp
    subst hp
    norm_num
  have hq : (0 : ℚ) < 3 := by norm_num
  have heq : runSchedulers [defaultProcess] 3 = Except.ok
      [buildResult .fcfs [defaultProcess] (fcfsSlices [defaultProcess]),
        buildResult .sjf [defaultProcess] (sjfSlices [defaultProcess]),
        buildResult .priority [defaultProcess] (prioritySlices [defaultProcess]),
        buildResult .rr [defaultProcess]
          (roundRobinSlices [defaultProcess] 3 hq (validWorkload_burst_pos hv)),
        buildResult .hybridAi [defaultProcess]
          (hybridSlices [defaultProcess] (validWorkload_burst_pos hv))] := by
    unfold runSchedulers
    rw [dif_pos ⟨hv, hq⟩]
  exact ⟨_, heq, claim_C1_work_conservation [defaultProcess] 3 _ heq⟩

/-- C2: in every policy's result, any two distinct execution slices —
within one process's history or across different processes' histories —
never overlap in time: one ends at or before the other starts. -/
theorem claim_C2_no_overlap (ps : List ProcessInput) (q : ℚ)
    (rs : List SchedulingResult) (hrun : runSchedulers ps q = Except.ok rs) :
    ∀ r ∈ rs, ∀ p1 ∈ r.processes, ∀ p2 ∈ r.processes,
      ∀ s1 ∈ p1.sliceHistory, ∀ s2 ∈ p2.sliceHistory, s1 ≠ s2 →
        s1.stop ≤ s2.start ∨ s2.stop ≤ s1.start := by
  unfold runSchedulers at hrun
  by_cases h : validWorkload ps ∧ 0 < q
  · rw [dif_pos h] at hrun
    injection hrun with h2
    subst h2
    intro r hr
    have hb := validWorkload_burst_pos h.1
    simp only [List.mem_cons, List.not_mem_nil, or_false] at hr
    rcases hr with rfl | rfl | rfl | rfl | rfl
    · exact buildResult_disjoint _ _ _ (npSlices_chain fcfsKey ps hb)
    · exact buildResult_disjoint _ _ _ (npSlices_chain sjfKey ps hb)
    · exact buildResult_disjoint _ _ _ (npSlices_chain priorityKey ps hb)
    · exact buildResult_disjoint _ _ _ (roundRobinSlices_chain ps q h.2 hb)
    · exact buildResult_disjoint _ _ _ (hybridSlices_chain ps hb)
  · rw [dif_neg h] at hrun
    simp at hrun

/-- Witness for C2 at a concrete one-process workload and quantum 3. -/
theorem claim_C2_witness :
    ∃ rs, runSchedulers [defaultProcess] 3 = Except.ok rs ∧
      ∀ r ∈ rs, ∀ p1 ∈ r.processes, ∀ p2 ∈ r.processes,
        ∀ s1 ∈ p1.sliceHistory, ∀ s2 ∈ p2.sliceHistory, s1 ≠ s2 →
          s1.stop ≤ s2.start ∨ s2.stop ≤ s1.start := by
  have hv : validWorkload [defaultProcess] := by
    unfold validWorkload validProcess defaultProcess
    refine ⟨by simp, by simp, ?_⟩
    intro p hp
    simp only [List.mem_singleton] at hp
    subst hp
    norm_num
  have hq : (0 : ℚ) < 3 := by norm_num
  have heq : runSchedulers [defaultProcess] 3 = Except.ok
      [buildResult .fcfs [defaultProcess] (fcfsSlices [defaultProcess]),
        buildResult .sjf [defaultProcess] (sjfSlices [defaultProcess]),
        buildResult .priority [defaultProcess] (prioritySlices [defaultProcess]),
        buildResult .rr [defaultProcess]
          (roundRobinSlices [defaultProcess] 3 hq (validWorkload_burst_pos hv)),
        buildResult .hybridAi [defaultProcess]
          (hybridSlices [defaultProcess] (validWorkload_burst_pos hv))] := by
    unfold runSchedulers
    rw [dif_pos ⟨hv, hq⟩]
  exact ⟨_, heq, claim_C2_no_overlap [defaultProcess] 3 _ heq⟩


theorem summarize_total (l : List ProcessResult) :
    (summarize l).totalExecutionTime = totalExecutionTime l := rfl

theorem summarize_cpu (l : List ProcessResult) :
    (summarize l).cpuUtilization =
      if totalExecutionTime l = 0 then 0
      else 100 * busyTime l / totalExecutionTime l := rfl

theorem summarize_throughput (l : List ProcessResult) :
    (summarize l).throughput =
      if totalExecutionTime l = 0 then 0
      else (l.length : ℚ) / totalExecutionTime l := rfl

theorem totalExecutionTime_cons (r : ProcessResult) (rs : List ProcessResult) :
    totalExecutionTime (r :: rs) =
      rs.foldl (fun m x => max m x.finishTime) r.finishTime -
        rs.foldl (fun m x => min m x.arrivalTime) r.arrivalTime := rfl

/-- C8: the metrics calculator computes
`totalExecutionTime = max finishTime − min arrivalTime` (the makespan),
`cpuUtilization = 100 × (sum of busy-slice durations) / totalExecutionTime`
and `throughput = processCount / totalExecutionTime`, and reports the two
ratios as 0 (instead of dividing by zero) when the makespan is 0. -/
theorem claim_C8_metrics (l : List ProcessResult) (hne : l ≠ []) :
    (∃ rmax ∈ l, ∃ rmin ∈ l,
      (summarize l).totalExecutionTime = rmax.finishTime - rmin.arrivalTime ∧
      (∀ r ∈ l, r.finishTime ≤ rmax.finishTime) ∧
      (∀ r ∈ l, rmin.arrivalTime ≤ r.arrivalTime)) ∧
    ((summarize l).totalExecutionTime ≠ 0 →
      (summarize l).cpuUtilization =
        100 * busyTime l / (summarize l).totalExecutionTime ∧
      (summarize l).throughput = (l.length : ℚ) / (summarize l).totalExecutionTime) ∧
    ((summarize l).totalExecutionTime = 0 →
      (summarize l).cpuUtilization = 0 ∧ (summarize l).throughput = 0) := by
  refine ⟨?_, ?_, ?_⟩
  · match l, hne with
    | r :: rs, _ =>
      have hMW : ∃ rmax ∈ r :: rs,
          rs.foldl (fun m x => max m x.finishTime) r.finishTime =
            rmax.finishTime := by
        rcases foldl_max_exists (fun x : ProcessResult => x.finishTime) rs
            r.finishTime with hh | ⟨x, hx, he⟩
        · exact ⟨r, List.mem_cons_self _ _, hh⟩
        · exact ⟨x, List.mem_cons_of_mem _ hx, he⟩
      have hmW : ∃ rmin ∈ r :: rs,
          rs.foldl (fun m x => min m x.arrivalTime) r.arrivalTime =
            rmin.arrivalTime := by
        rcases foldl_min_exists (fun x : ProcessResult => x.arrivalTime) rs
            r.arrivalTime with hh | ⟨x, hx, he⟩
        · exact ⟨r, List.mem_cons_self _ _, hh⟩
        · exact ⟨x, List.mem_cons_of_mem _ hx, he⟩
      obtain ⟨rmax, hrmax, hFe⟩ := hMW
      obtain ⟨rmin, hrmin, hme⟩ := hmW
      have hMle := foldl_max_le (fun x : ProcessResult => x.finishTime) rs r.finishTime
      have hmle := foldl_min_le (fun x : ProcessResult => x.arrivalTime) rs r.arrivalTime
      refine ⟨rmax, hrmax, rmin, hrmin, ?_, ?_, ?_⟩
      · rw [summarize_total, totalExecutionTime_cons, hFe, hme]
      · intro x hx
        rcases List.mem_cons.mp hx with rfl | hx
        · exact le_of_le_of_eq hMle.1 hFe
        · exact le_of_le_of_eq (hMle.2 x hx) hFe
      · intro x hx
        rcases List.mem_cons.mp hx with rfl | hx
        · exact le_of_eq_of_le hme.symm hmle.1
        · exact le_of_eq_of_le hme.symm (hmle.2 x hx)
  · intro hT
    rw [summarize_total] at hT
    rw [summarize_cpu, summarize_throughput, summarize_total,
      if_neg hT, if_neg hT]
    exact ⟨rfl, rfl⟩
  · intro hT
    rw [summarize_total] at hT
    rw [summarize_cpu, summarize_throughput, if_pos hT, if_pos hT]
    exact ⟨rfl, rfl⟩

/-- Witness for C8 at a concrete one-element completed run. -/
theorem claim_C8_witness :
    ((⟨"p1", 0, 0, 5, 0, 5, 0, [⟨0, 0, 5⟩]⟩ : ProcessResult) :: []) ≠ [] ∧
    ((∃ rmax ∈ (⟨"p1", 0, 0, 5, 0, 5, 0, [⟨0, 0, 5⟩]⟩ : ProcessResult) :: [],
        ∃ rmin ∈ (⟨"p1", 0, 0, 5, 0, 5, 0, [⟨0, 0, 5⟩]⟩ : ProcessResult) :: [],
          (summarize ((⟨"p1", 0, 0, 5, 0, 5, 0, [⟨0, 0, 5⟩]⟩ :
              ProcessResult) :: [])).totalExecutionTime =
            rmax.finishTime - rmin.arrivalTime ∧
          (∀ r ∈ (⟨"p1", 0, 0, 5, 0, 5, 0, [⟨0, 0, 5⟩]⟩ : ProcessResult) :: [],
            r.finishTime ≤ rmax.finishTime) ∧
          (∀ r ∈ (⟨"p1", 0, 0, 5, 0, 5, 0, [⟨0, 0, 5⟩]⟩ : ProcessResult) :: [],
            rmin.arrivalTime ≤ r.arrivalTime)) ∧
      ((summarize ((⟨"p1", 0, 0, 5, 0, 5, 0, [⟨0, 0, 5⟩]⟩ :
          ProcessResult) :: [])).totalExecutionTime ≠ 0 →
        (summarize ((⟨"p1", 0, 0, 5, 0, 5, 0, [⟨0, 0, 5⟩]⟩ :
            ProcessResult) :: [])).cpuUtilization =
          100 * busyTime ((⟨"p1", 0, 0, 5, 0, 5, 0, [⟨0, 0, 5⟩]⟩ :
            ProcessResult) :: []) /
            (summarize ((⟨"p1", 0, 0, 5, 0, 5, 0, [⟨0, 0, 5⟩]⟩ :
              ProcessResult) :: [])).totalExecutionTime ∧
        (summarize ((⟨"p1", 0, 0, 5, 0, 5, 0, [⟨0, 0, 5⟩]⟩ :
            ProcessResult) :: [])).throughput =
          ((((⟨"p1", 0, 0, 5, 0, 5, 0, [⟨0, 0, 5⟩]⟩ :
            ProcessResult) :: []).length : ℚ)) /
            (summarize ((⟨"p1", 0, 0, 5, 0, 5, 0, [⟨0, 0, 5⟩]⟩ :
              ProcessResult) :: [])).totalExecutionTime) ∧
      ((summarize ((⟨"p1", 0, 0, 5, 0, 5, 0, [⟨0, 0, 5⟩]⟩ :
          ProcessResult) :: [])).totalExecutionTime = 0 →
        (summarize ((⟨"p1", 0, 0, 5, 0, 5, 0, [⟨0, 0, 5⟩]⟩ :
            ProcessResult) :: [])).cpuUtilization = 0 ∧
        (summarize ((⟨"p1", 0, 0, 5, 0, 5, 0, [⟨0, 0, 5⟩]⟩ :
            ProcessResult) :: [])).throughput = 0)) :=
  ⟨by simp, claim_C8_metrics _ (by simp)⟩


theorem freeIdxAux_ge (existing : List ProcessInput) :
    ∀ (fuel idx : ℕ), idx ≤ freeIdxAux existing idx fuel := by
  intro fuel
  induction fuel with
  | zero => intro idx; exact le_refl _
  | succ fuel ih =>
    intro idx
    rw [freeIdxAux]
    by_cases hany : existing.any fun p => decide (p.id = pid idx)
    · rw [if_pos hany]
      exact le_trans (Nat.le_succ idx) (ih (idx + 1))
    · rw [if_neg hany]

theorem freeIdxAux_free (existing : List ProcessInput) :
    ∀ (fuel idx : ℕ),
      (∃ k, k < fuel ∧ ∀ p ∈ existing, p.id ≠ pid (idx + k)) →
      ∀ p ∈ existing, p.id ≠ pid (freeIdxAux existing idx fuel) := by
  intro fuel
  induction fuel with
  | zero =>
    rintro idx ⟨k, hk, _⟩
    omega
  | succ fuel ih =>
    rintro idx ⟨k, hk, hfree⟩ p hp
    rw [freeIdxAux]
    by_cases hany : existing.any fun x => decide (x.id = pid idx)
    · rw [if_pos hany]
      obtain ⟨x0, hx0, hx0e⟩ := List.any_eq_true.mp hany
      have hk0 : k ≠ 0 := by
        intro h0
        subst h0
        exact hfree x0 hx0 (by simpa using hx0e)
      refine ih (idx + 1) ⟨k - 1, by omega, ?_⟩ p hp
      intro z hz
      have harith : idx + 1 + (k - 1) = idx + k := by omega
      rw [harith]
      exact hfree z hz
    · rw [if_neg hany]
      intro he
      exact hany (List.any_eq_true.mpr ⟨p, hp, by simpa using he⟩)

theorem exists_free_candidate (existing : List ProcessInput) :
    ∃ k, k < existing.length + 1 ∧
      ∀ p ∈ existing, p.id ≠ pid (existing.length + 1 + k) := by
  by_contra hcon
  push_neg at hcon
  have hmap : ∀ k : Fin (existing.length + 1),
      pid (existing.length + 1 + (k : ℕ)) ∈ existing.map ProcessInput.id := by
    intro k
    obtain ⟨p, hp, he⟩ := hcon k k.isLt
    exact he ▸ List.mem_map_of_mem _ hp
  have hinj : Function.Injective
      fun k : Fin (existing.length + 1) => pid (existing.length + 1 + (k : ℕ)) := by
    intro a b hab
    have hn := pid_inj hab
    exact Fin.ext (by omega)
  have hsub : (Finset.univ.image
      fun k : Fin (existing.length + 1) => pid (existing.length + 1 + (k : ℕ))) ⊆
      (existing.map ProcessInput.id).toFinset := by
    intro s hs
    obtain ⟨k, _, rfl⟩ := Finset.mem_image.mp hs
    exact List.mem_toFinset.mpr (hmap k)
  have hcard1 : (Finset.univ.image
      fun k : Fin (existing.length + 1) =>
        pid (existing.length + 1 + (k : ℕ))).card = existing.length + 1 := by
    rw [Finset.card_image_of_injective _ hinj, Finset.card_univ, Fintype.card_fin]
  have hcard2 : (existing.map ProcessInput.id).toFinset.card ≤ existing.length := by
    calc (existing.map ProcessInput.id).toFinset.card
        ≤ (existing.map ProcessInput.id).length := (existing.map _).toFinset_card_le
      _ = existing.length := List.length_map _ _
  have hle := Finset.card_le_card hsub
  omega

/-- C10: `generateProcessId` returns `p` followed by a positive integer
that differs from every existing process id, and consequently
`addProcess` never introduces a duplicate id into the workload. -/
theorem claim_C10_fresh_id (existing prev : List ProcessInput)
    (hnd : (prev.map ProcessInput.id).Nodup) :
    (∃ m : ℕ, 0 < m ∧ generateProcessId existing = pid m ∧
      ∀ p ∈ existing, p.id ≠ generateProcessId existing) ∧
    ((addProcess prev).map ProcessInput.id).Nodup := by
  constructor
  · obtain ⟨k, hk, hfree⟩ := exists_free_candidate existing
    refine ⟨freeIdxAux existing (existing.length + 1) (existing.length + 1),
      ?_, rfl, ?_⟩
    · have hge := freeIdxAux_ge existing (existing.length + 1) (existing.length + 1)
      omega
    · exact freeIdxAux_free existing (existing.length + 1) (existing.length + 1)
        ⟨k, hk, hfree⟩
  · obtain ⟨k, hk, hfree⟩ := exists_free_candidate prev
    have hfresh := freeIdxAux_free prev (prev.length + 1) (prev.length + 1)
      ⟨k, hk, hfree⟩
    have hmap : (addProcess prev).map ProcessInput.id =
        prev.map ProcessInput.id ++ [generateProcessId prev] := by
      unfold addProcess
      rw [List.map_append]
      rfl
    rw [hmap]
    refine List.nodup_append.mpr ⟨hnd, List.nodup_singleton _, ?_⟩
    intro a ha hb
    obtain ⟨p, hp, rfl⟩ := List.mem_map.mp ha
    rw [List.mem_singleton] at hb
    exact hfresh p hp hb

/-- Witness for C10 at a concrete singleton workload. -/
theorem claim_C10_witness :
    (([defaultProcess].map ProcessInput.id)).Nodup ∧
    ((∃ m : ℕ, 0 < m ∧ generateProcessId [] = pid m ∧
        ∀ p ∈ ([] : List ProcessInput), p.id ≠ generateProcessId []) ∧
      ((addProcess [defaultProcess]).map ProcessInput.id).Nodup) :=
  ⟨by simp, claim_C10_fresh_id [] [defaultProcess] (by simp)⟩


/-! ## Round-Robin with a large quantum degenerates to FCFS -/

/-- The FCFS total order: earlier arrival first, ties by input position. -/
def pairLexLt (a b : ℕ × ProcessInput) : Prop :=
  a.2.arrivalTime < b.2.arrivalTime ∨
    (a.2.arrivalTime = b.2.arrivalTime ∧ a.1 < b.1)

theorem pairLexLt_trans {a b c : ℕ × ProcessInput}
    (h1 : pairLexLt a b) (h2 : pairLexLt b c) : pairLexLt a c := by
  rcases h1 with h1 | ⟨he1, hi1⟩ <;> rcases h2 with h2 | ⟨he2, hi2⟩
  · exact Or.inl (lt_trans h1 h2)
  · exact Or.inl (he2 ▸ h1)
  · exact Or.inl (he1 ▸ h2)
  · exact Or.inr ⟨he1.trans he2, lt_trans hi1 hi2⟩

theorem pairLexLt_asymm {a b : ℕ × ProcessInput}
    (h1 : pairLexLt a b) (h2 : pairLexLt b a) : False := by
  rcases h1 with h1 | ⟨he1, hi1⟩ <;> rcases h2 with h2 | ⟨he2, hi2⟩
  · exact absurd (lt_trans h1 h2) (lt_irrefl _)
  · exact absurd h1 (he2 ▸ lt_irrefl _)
  · exact absurd h2 (he1 ▸ lt_irrefl _)
  · exact absurd (lt_trans hi1 hi2) (lt_irrefl _)

theorem pairLexLt_arr_le {a b : ℕ × ProcessInput} (h : pairLexLt a b) :
    a.2.arrivalTime ≤ b.2.arrivalTime := by
  rcases h with h | ⟨he, _⟩
  · exact le_of_lt h
  · exact le_of_eq he

/-- Projection of a queue entry to its identity. -/
def pairOfItem (x : RRItem) : ℕ × ProcessInput := (x.idx, x.proc)

/-- Projection of an arrival to its identity. -/
def pairOfArr (a : Arrival) : ℕ × ProcessInput := (a.idx, a.proc)

theorem toItem_pair (a : Arrival) : pairOfItem (toItem a) = pairOfArr a := rfl

theorem fcfsLt_iff (a b : ℕ × ProcessInput) :
    (qlex (fcfsKey a.2) (fcfsKey b.2) = true) ↔
      a.2.arrivalTime < b.2.arrivalTime := by
  simp [qlex, fcfsKey]

theorem pickBy_some_of_ne_nil {lt : α → α → Bool} {l : List α} (h : l ≠ []) :
    ∃ m, pickBy lt l = some m := by
  cases hp : pickBy lt l with
  | none => exact absurd (pickBy_eq_none.mp hp) h
  | some m => exact ⟨m, rfl⟩

theorem pickBy_fcfs_min :
    ∀ {l : List (ℕ × ProcessInput)},
      List.Pairwise (fun a b => a.1 < b.1) l →
      ∀ {m}, pickBy (fun a b => qlex (fcfsKey a.2) (fcfsKey b.2)) l = some m →
      m ∈ l ∧ ∀ x ∈ l, x ≠ m → pairLexLt m x := by
  intro l
  induction l with
  | nil =>
    intro _ m hm
    simp [pickBy] at hm
  | cons a as ih =>
    intro hp m hm
    obtain ⟨hhead, htail⟩ := List.pairwise_cons.mp hp
    simp only [pickBy] at hm
    cases hs : pickBy (fun a b => qlex (fcfsKey a.2) (fcfsKey b.2)) as with
    | none =>
      rw [hs] at hm
      have hnil : as = [] := pickBy_eq_none.mp hs
      subst hnil
      simp only [Option.some.injEq] at hm
      subst hm
      refine ⟨List.mem_cons_self _ _, ?_⟩
      intro x hx hne
      rcases List.mem_cons.mp hx with rfl | hx
      · exact absurd rfl hne
      · cases hx
    | some y =>
      rw [hs] at hm
      obtain ⟨hymem, hymin⟩ := ih htail hs
      cases hlt : qlex (fcfsKey y.2) (fcfsKey a.2) with
      | true =>
        simp only [hlt, if_true] at hm
        injection hm with hm
        subst hm
        refine ⟨List.mem_cons_of_mem _ hymem, ?_⟩
        intro x hx hne
        rcases List.mem_cons.mp hx with rfl | hx
        · exact Or.inl ((fcfsLt_iff _ _).mp hlt)
        · exact hymin x hx hne
      | false =>
        simp only [hlt, Bool.false_eq_true, if_false] at hm
        injection hm with hm
        subst hm
        refine ⟨List.mem_cons_self _ _, ?_⟩
        intro x hx hne
        have hale : a.2.arrivalTime ≤ y.2.arrivalTime := by
          by_contra hgt
          have := (fcfsLt_iff y a).mpr (lt_of_not_le hgt)
          rw [hlt] at this
          cases this
        have hmy : pairLexLt a y := by
          rcases lt_or_eq_of_le hale with h | h
          · exact Or.inl h
          · exact Or.inr ⟨h, hhead y hymem⟩
        rcases List.mem_cons.mp hx with rfl | hx
        · exact absurd rfl hne
        · by_cases hxy : x = y
          · exact hxy ▸ hmy
          · exact pairLexLt_trans hmy (hymin x hx hxy)

theorem lex_sorted_head_min {L ready : List (ℕ × ProcessInput)}
    (hper : List.Perm L ready) (hsort : List.Pairwise pairLexLt L)
    {m : ℕ × ProcessInput} (hmem : m ∈ ready)
    (hmin : ∀ x ∈ ready, x ≠ m → pairLexLt m x)
    {h0 : ℕ × ProcessInput} {t0 : List (ℕ × ProcessInput)}
    (hL : L = h0 :: t0) : h0 = m := by
  subst hL
  by_cases he : h0 = m
  · exact he
  · have h0mem : h0 ∈ ready := hper.subset (List.mem_cons_self _ _)
    have h1 : pairLexLt m h0 := hmin h0 h0mem he
    have hmL : m ∈ h0 :: t0 := hper.mem_iff.mpr hmem
    rcases List.mem_cons.mp hmL with rfl | hmt
    · exact absurd rfl he
    · exact absurd h1 fun hc =>
        pairLexLt_asymm hc ((List.pairwise_cons.mp hsort).1 m hmt)

theorem enum_pairwise_lt (ps : List ProcessInput) :
    List.Pairwise (fun a b : ℕ × ProcessInput => a.1 < b.1) ps.enum := by
  have h1 : List.Pairwise (· < ·) (ps.enum.map Prod.fst) := by
    rw [List.enum_map_fst]
    exact List.pairwise_lt_range _
  exact List.pairwise_map.mp h1

theorem mkArrivals_pairs :
    ∀ (l : List (ℕ × ProcessInput)) (h : ∀ x ∈ l, 0 < x.2.burstTime),
      (mkArrivals l h).map pairOfArr = l := by
  intro l
  induction l with
  | nil => intro h; rfl
  | cons y ys ih =>
    intro h
    rw [mkArrivals, List.map_cons, ih]
    rfl

theorem insertArrival_sorted (x : Arrival) :
    ∀ {l : List Arrival},
      List.Pairwise pairLexLt (l.map pairOfArr) →
      (∀ y ∈ l, x.idx < y.idx) →
      List.Pairwise pairLexLt ((insertArrival x l).map pairOfArr) := by
  intro l
  induction l with
  | nil =>
    intro _ _
    simp [insertArrival]
  | cons y ys ih =>
    intro hp hidx
    rw [List.map_cons, List.pairwise_cons] at hp
    obtain ⟨hyall, htail⟩ := hp
    rw [insertArrival]
    by_cases h : y.proc.arrivalTime < x.proc.arrivalTime
    · rw [if_pos h, List.map_cons, List.pairwise_cons]
      constructor
      · intro z hz
        obtain ⟨b, hb, rfl⟩ := List.mem_map.mp hz
        rcases List.mem_cons.mp ((insertArrival_perm x ys).mem_iff.mp hb) with rfl | hb2
        · exact Or.inl h
        · exact hyall _ (List.mem_map_of_mem _ hb2)
      · exact ih htail fun z hz => hidx z (List.mem_cons_of_mem _ hz)
    · rw [if_neg h, List.map_cons, List.map_cons, List.pairwise_cons]
      push_neg at h
      constructor
      · intro z hz
        rcases List.mem_cons.mp hz with rfl | hz2
        · rcases lt_or_eq_of_le h with hlt | heq
          · exact Or.inl hlt
          · exact Or.inr ⟨heq, hidx y (List.mem_cons_self _ _)⟩
        · obtain ⟨b, hb, rfl⟩ := List.mem_map.mp hz2
          have hyb : pairLexLt (pairOfArr y) (pairOfArr b) :=
            hyall _ (List.mem_map_of_mem _ hb)
          have harr : x.proc.arrivalTime ≤ b.proc.arrivalTime :=
            le_trans h (pairLexLt_arr_le hyb)
          rcases lt_or_eq_of_le harr with hlt | heq
          · exact Or.inl hlt
          · exact Or.inr ⟨heq, hidx b (List.mem_cons_of_mem _ hb)⟩
      · exact List.pairwise_cons.mpr ⟨hyall, htail⟩

theorem sortArrivals_sorted :
    ∀ {l : List Arrival},
      List.Pairwise (fun a b : Arrival => a.idx < b.idx) l →
      List.Pairwise pairLexLt ((sortArrivals l).map pairOfArr) := by
  intro l
  induction l with
  | nil => intro _; simp [sortArrivals]
  | cons x xs ih =>
    intro hp
    obtain ⟨hx, htail⟩ := List.pairwise_cons.mp hp
    rw [sortArrivals]
    refine insertArrival_sorted x (ih htail) ?_
    intro y hy
    exact hx y ((sortArrivals_perm xs).mem_iff.mp hy)

theorem initArrivals_sorted (ps : List ProcessInput) (hb : ∀ p ∈ ps, 0 < p.burstTime) :
    List.Pairwise pairLexLt ((initArrivals ps hb).map pairOfArr) := by
  rw [initArrivals]
  refine sortArrivals_sorted ?_
  have h1 := enum_pairwise_lt ps
  rw [← mkArrivals_pairs ps.enum (fun x hx =>
    hb x.2 (List.getElem?_mem (List.mem_enum_iff_getElem?.mp hx)))] at h1
  exact (List.pairwise_map.mp h1).imp fun h => h

theorem initArrivals_pairs_perm (ps : List ProcessInput)
    (hb : ∀ p ∈ ps, 0 < p.burstTime) :
    List.Perm ((initArrivals ps hb).map pairOfArr) ps.enum := by
  refine ((initArrivals_perm ps hb).map pairOfArr).trans ?_
  rw [mkArrivals_pairs]

theorem mem_takeWhile_arr_le {t : ℚ} {l : List Arrival} {a : Arrival}
    (h : a ∈ l.takeWhile fun a => a.proc.arrivalTime ≤ t) :
    a.proc.arrivalTime ≤ t := by
  have := List.mem_takeWhile_imp h
  simpa using this

theorem dropWhile_arr_gt {t : ℚ} :
    ∀ {l : List Arrival}, List.Pairwise pairLexLt (l.map pairOfArr) →
      ∀ a ∈ l.dropWhile fun a => a.proc.arrivalTime ≤ t,
        t < a.proc.arrivalTime := by
  intro l
  induction l with
  | nil =>
    intro _ a ha
    simp [List.dropWhile] at ha
  | cons x xs ih =>
    intro hp a ha
    rw [List.map_cons, List.pairwise_cons] at hp
    obtain ⟨hx, htail⟩ := hp
    by_cases hxt : x.proc.arrivalTime ≤ t
    · rw [List.dropWhile_cons, if_pos (decide_eq_true hxt)] at ha
      exact ih htail a ha
    · rw [List.dropWhile_cons, if_neg (by simpa using hxt)] at ha
      rcases List.mem_cons.mp ha with rfl | ha2
      · exact lt_of_not_le hxt
      · exact lt_of_lt_of_le (lt_of_not_le hxt)
          (pairLexLt_arr_le (hx _ (List.mem_map_of_mem _ ha2)))

theorem filter_arr_eq_takeWhile {t : ℚ} :
    ∀ {l : List Arrival}, List.Pairwise pairLexLt (l.map pairOfArr) →
      (l.filter fun a => a.proc.arrivalTime ≤ t) =
        l.takeWhile fun a => a.proc.arrivalTime ≤ t := by
  intro l
  induction l with
  | nil => intro _; rfl
  | cons x xs ih =>
    intro hp
    rw [List.map_cons, List.pairwise_cons] at hp
    obtain ⟨hx, htail⟩ := hp
    by_cases hxt : x.proc.arrivalTime ≤ t
    · rw [List.filter_cons, List.takeWhile_cons,
        if_pos (decide_eq_true hxt), if_pos (decide_eq_true hxt), ih htail]
    · rw [List.filter_cons, List.takeWhile_cons,
        if_neg (by simpa using hxt), if_neg (by simpa using hxt)]
      rw [List.filter_eq_nil_iff]
      intro y hy
      have harr : x.proc.arrivalTime ≤ y.proc.arrivalTime :=
        pairLexLt_arr_le (hx _ (List.mem_map_of_mem _ hy))
      simp only [decide_eq_true_eq]
      exact fun hle => hxt (le_trans harr hle)

theorem map_pairOfArr_filter_arr (t : ℚ) :
    ∀ l : List Arrival,
      ((l.map pairOfArr).filter fun x => x.2.arrivalTime ≤ t) =
        (l.filter fun a => a.proc.arrivalTime ≤ t).map pairOfArr := by
  intro l
  rw [List.filter_map]
  rfl

theorem nextArrival_le {pending : List (ℕ × ProcessInput)} :
    ∀ x ∈ pending, nextArrival pending ≤ x.2.arrivalTime := by
  intro x hx
  match pending, hx with
  | y :: ys, hx =>
    unfold nextArrival
    rcases List.mem_cons.mp hx with rfl | hx2
    · exact (foldl_min_le (fun z : ℕ × ProcessInput => z.2.arrivalTime) ys
        x.2.arrivalTime).1
    · exact (foldl_min_le (fun z : ℕ × ProcessInput => z.2.arrivalTime) ys
        y.2.arrivalTime).2 x hx2

theorem npRun_step_none (key : ProcessInput → ℚ × ℚ)
    (pending : List (ℕ × ProcessInput)) (t : ℚ)
    (h : pickBy (fun a b => qlex (key a.2) (key b.2))
        (pending.filter fun x => x.2.arrivalTime ≤ npStepTime pending t) = none) :
    npRun key pending t = [] := by
  rw [npRun]
  split
  · rfl
  · rename_i c hc
    rw [h] at hc
    cases hc

theorem npRun_step_some (key : ProcessInput → ℚ × ℚ)
    (pending : List (ℕ × ProcessInput)) (t : ℚ) {c : ℕ × ProcessInput}
    (h : pickBy (fun a b => qlex (key a.2) (key b.2))
        (pending.filter fun x => x.2.arrivalTime ≤ npStepTime pending t) = some c) :
    npRun key pending t =
      ⟨c.1, npStepTime pending t, npStepTime pending t + c.2.burstTime⟩ ::
        npRun key (pending.filter fun x => x.1 ≠ c.1)
          (npStepTime pending t + c.2.burstTime) := by
  rw [npRun]
  split
  · rename_i hc
    rw [h] at hc
    cases hc
  · rename_i c2 hc
    rw [h] at hc
    cases hc
    rfl

theorem npRun_idle_advance (key : ProcessInput → ℚ × ℚ)
    {pending : List (ℕ × ProcessInput)} {t : ℚ} (hne : pending ≠ [])
    (hnone : ∀ x ∈ pending, ¬x.2.arrivalTime ≤ t) :
    npRun key pending t = npRun key pending (nextArrival pending) := by
  have hany : ¬((pending.any fun x => x.2.arrivalTime ≤ t) = true) := by
    intro hcon
    obtain ⟨x, hx, hxt⟩ := List.any_eq_true.mp hcon
    exact hnone x hx (of_decide_eq_true hxt)
  have h1 : npStepTime pending t = nextArrival pending := by
    unfold npStepTime
    rw [if_neg hany]
  have h2 : npStepTime pending (nextArrival pending) = nextArrival pending := by
    obtain ⟨x, hx, hxe⟩ := nextArrival_exists hne
    unfold npStepTime
    rw [if_pos (List.any_eq_true.mpr ⟨x, hx, decide_eq_true (le_of_eq hxe)⟩)]
  cases hpick : pickBy (fun a b => qlex (key a.2) (key b.2))
      (pending.filter fun x => x.2.arrivalTime ≤ nextArrival pending) with
  | none =>
    rw [npRun_step_none key pending t (by rw [h1]; exact hpick),
      npRun_step_none key pending (nextArrival pending) (by rw [h2]; exact hpick)]
  | some c =>
    rw [npRun_step_some key pending t (by rw [h1]; exact hpick),
      npRun_step_some key pending (nextArrival pending) (by rw [h2]; exact hpick),
      h1, h2]

theorem rr_eq_fcfs_sim (q : ℚ) (hq : 0 < q) :
    ∀ (queue : List RRItem) (future : List Arrival) (t : ℚ),
      ∀ pending : List (ℕ × ProcessInput),
        (∀ x ∈ queue, x.remaining = x.proc.burstTime) →
        (∀ x ∈ queue, x.proc.arrivalTime ≤ t) →
        List.Pairwise pairLexLt (queue.map pairOfItem) →
        List.Pairwise pairLexLt (future.map pairOfArr) →
        (∀ x ∈ queue, ∀ a ∈ future, x.proc.arrivalTime < a.proc.arrivalTime) →
        List.Perm (queue.map pairOfItem ++ future.map pairOfArr) pending →
        List.Pairwise (fun a b => a.1 < b.1) pending →
        (∀ x ∈ pending, x.2.burstTime ≤ q) →
        rrRun q hq queue future t = npRun fcfsKey pending t := by
  intro queue future t
  induction queue, future, t using rrRun.induct q hq with
  | case1 queue future t arrived future1 hq1 hft =>
    intro pending hqr hqarr hqs hfs hcross hperm hpend hble
    obtain ⟨hqe, hae⟩ := List.append_eq_nil.mp hq1
    have harr : future.takeWhile (fun a => decide (a.proc.arrivalTime ≤ t)) = [] :=
      List.map_eq_nil_iff.mp hae
    have hfut : future = [] := by
      have hsp := List.takeWhile_append_dropWhile
        (p := fun a => decide (a.proc.arrivalTime ≤ t)) (l := future)
      rw [harr] at hsp
      rw [← hsp,
        show future.dropWhile (fun a => decide (a.proc.arrivalTime ≤ t)) = [] from hft]
      rfl
    have hpnil : pending = [] := by
      rw [hqe, hfut] at hperm
      simp only [List.map_nil, List.nil_append] at hperm
      exact hperm.symm.eq_nil
    rw [rrRun_step_done hq1 hft, hpnil, npRun_nil]
  | case2 queue future t arrived future1 hq1 f tail hft ih =>
    intro pending hqr hqarr hqs hfs hcross hperm hpend hble
    obtain ⟨hqe, hae⟩ := List.append_eq_nil.mp hq1
    have harr : future.takeWhile (fun a => decide (a.proc.arrivalTime ≤ t)) = [] :=
      List.map_eq_nil_iff.mp hae
    have hfeq : future.dropWhile (fun a => decide (a.proc.arrivalTime ≤ t)) = future := by
      conv_rhs =>
        rw [← List.takeWhile_append_dropWhile
          (p := fun a => decide (a.proc.arrivalTime ≤ t)) (l := future)]
      rw [harr, List.nil_append]
    have hfl : future = f :: tail := by
      rw [← hfeq]
      exact hft
    have htf : t < f.proc.arrivalTime := by
      rw [hfl, List.takeWhile_cons] at harr
      by_contra hcon
      push_neg at hcon
      simp [hcon] at harr
    have hfmin : ∀ a ∈ future, f.proc.arrivalTime ≤ a.proc.arrivalTime := by
      intro a ha
      rw [hfl] at ha hfs
      rcases List.mem_cons.mp ha with rfl | ha2
      · exact le_refl _
      · rw [List.map_cons, List.pairwise_cons] at hfs
        exact pairLexLt_arr_le (hfs.1 _ (List.mem_map_of_mem _ ha2))
    have hpermF : List.Perm (future.map pairOfArr) pending := by
      have h0 := hperm
      rw [hqe] at h0
      simpa using h0
    have hpend_gt : ∀ x ∈ pending, t < x.2.arrivalTime := by
      intro x hx
      obtain ⟨a, ha, rfl⟩ := List.mem_map.mp (hpermF.mem_iff.mpr hx)
      exact lt_of_lt_of_le htf (hfmin a ha)
    have hfpend : pairOfArr f ∈ pending :=
      hpermF.mem_iff.mp (by rw [hfl]; exact List.mem_map_of_mem _ (List.mem_cons_self _ _))
    have hne : pending ≠ [] := List.ne_nil_of_mem hfpend
    have hnext : nextArrival pending = f.proc.arrivalTime := by
      refine le_antisymm (nextArrival_le _ hfpend) ?_
      obtain ⟨x, hx, hxe⟩ := nextArrival_exists hne
      rw [← hxe]
      obtain ⟨a, ha, rfl⟩ := List.mem_map.mp (hpermF.mem_iff.mpr hx)
      exact hfmin a ha
    have hrec : rrRun q hq [] (future.dropWhile fun a => a.proc.arrivalTime ≤ t)
        f.proc.arrivalTime = npRun fcfsKey pending f.proc.arrivalTime := by
      refine ih pending ?_ ?_ ?_ ?_ ?_ ?_ hpend hble
      · intro x hx
        cases hx
      · intro x hx
        cases hx
      · simp
      · rw [show future1 = future from hfeq]
        exact hfs
      · intro x hx
        cases hx
      · rw [show future1 = future from hfeq]
        simpa using hpermF
    rw [rrRun_step_idle hq1 hft, hrec,
      npRun_idle_advance fcfsKey hne (fun x hx => not_le.mpr (hpend_gt x hx)), hnext]
  | case3 queue future t arrived future1 c restQ hq1 hrem ih =>
    intro pending hqr hqarr hqs hfs hcross hperm hpend hble
    have hqr2 : ∀ x ∈ queue ++
        (future.takeWhile fun a => a.proc.arrivalTime ≤ t).map toItem,
        x.remaining = x.proc.burstTime := by
      intro x hx
      rcases List.mem_append.mp hx with hx | hx
      · exact hqr x hx
      · obtain ⟨a, _, rfl⟩ := List.mem_map.mp hx
        rfl
    have hqarr2 : ∀ x ∈ queue ++
        (future.takeWhile fun a => a.proc.arrivalTime ≤ t).map toItem,
        x.proc.arrivalTime ≤ t := by
      intro x hx
      rcases List.mem_append.mp hx with hx | hx
      · exact hqarr x hx
      · obtain ⟨a, ha, rfl⟩ := List.mem_map.mp hx
        exact mem_takeWhile_arr_le ha
    have hMapA : ((future.takeWhile fun a => a.proc.arrivalTime ≤ t).map toItem).map
        pairOfItem = (future.takeWhile fun a => a.proc.arrivalTime ≤ t).map pairOfArr := by
      rw [List.map_map]
      rfl
    have hsubA : List.Sublist (future.takeWhile fun a => a.proc.arrivalTime ≤ t) future :=
      (List.takeWhile_prefix _).sublist
    have hLpair : List.Pairwise pairLexLt
        ((queue ++ (future.takeWhile fun a => a.proc.arrivalTime ≤ t).map toItem).map
          pairOfItem) := by
      rw [List.map_append, hMapA, List.pairwise_append]
      refine ⟨hqs, hfs.sublist (hsubA.map pairOfArr), ?_⟩
      intro p1 hp1 p2 hp2
      obtain ⟨x, hx, rfl⟩ := List.mem_map.mp hp1
      obtain ⟨a, ha, rfl⟩ := List.mem_map.mp hp2
      exact Or.inl (hcross x hx a (hsubA.subset ha))
    have hsplit : (queue ++
        (future.takeWhile fun a => a.proc.arrivalTime ≤ t).map toItem).map pairOfItem ++
        (future.dropWhile fun a => a.proc.arrivalTime ≤ t).map pairOfArr =
        queue.map pairOfItem ++ future.map pairOfArr := by
      rw [List.map_append, hMapA, List.append_assoc, ← List.map_append,
        List.takeWhile_append_dropWhile]
    have hLperm : List.Perm
        ((queue ++ (future.takeWhile fun a => a.proc.arrivalTime ≤ t).map toItem).map
          pairOfItem ++
          (future.dropWhile fun a => a.proc.arrivalTime ≤ t).map pairOfArr) pending := by
      rw [hsplit]
      exact hperm
    have hcmem : c ∈ queue ++
        (future.takeWhile fun a => a.proc.arrivalTime ≤ t).map toItem := by
      rw [hq1]
      exact List.mem_cons_self _ _
    have hcrem : c.remaining = c.proc.burstTime := hqr2 c hcmem
    have hcarr : c.proc.arrivalTime ≤ t := hqarr2 c hcmem
    have hcpend : pairOfItem c ∈ pending :=
      hLperm.subset (List.mem_append_left _ (List.mem_map_of_mem _ hcmem))
    have ht1 : npStepTime pending t = t := by
      unfold npStepTime
      rw [if_pos (List.any_eq_true.mpr ⟨pairOfItem c, hcpend,
        decide_eq_true (show (pairOfItem c).2.arrivalTime ≤ t from hcarr)⟩)]
    have hreadyPerm : List.Perm
        ((queue ++ (future.takeWhile fun a => a.proc.arrivalTime ≤ t).map toItem).map
          pairOfItem)
        (pending.filter fun x => x.2.arrivalTime ≤ t) := by
      have hfq : ((queue.map pairOfItem).filter fun x => x.2.arrivalTime ≤ t) =
          queue.map pairOfItem := by
        rw [List.filter_eq_self]
        intro x hx
        obtain ⟨y, hy, rfl⟩ := List.mem_map.mp hx
        exact decide_eq_true (show (pairOfItem y).2.arrivalTime ≤ t from hqarr y hy)
      have hff : ((future.map pairOfArr).filter fun x => x.2.arrivalTime ≤ t) =
          (future.takeWhile fun a => a.proc.arrivalTime ≤ t).map pairOfArr := by
        rw [map_pairOfArr_filter_arr, filter_arr_eq_takeWhile hfs]
      have h1 := hperm.filter fun x : ℕ × ProcessInput => x.2.arrivalTime ≤ t
      rw [List.filter_append, hfq, hff] at h1
      rw [List.map_append, hMapA]
      exact h1
    have hready_ne : (pending.filter fun x => x.2.arrivalTime ≤ t) ≠ [] :=
      List.ne_nil_of_mem (List.mem_filter.mpr ⟨hcpend,
        decide_eq_true (show (pairOfItem c).2.arrivalTime ≤ t from hcarr)⟩)
    obtain ⟨m, hm⟩ := @pickBy_some_of_ne_nil (ℕ × ProcessInput)
      (fun a b => qlex (fcfsKey a.2) (fcfsKey b.2)) _ hready_ne
    obtain ⟨hmmem, hmmin⟩ := pickBy_fcfs_min (List.Pairwise.filter _ hpend) hm
    have hL : (queue ++ (future.takeWhile fun a => a.proc.arrivalTime ≤ t).map toItem).map
        pairOfItem = pairOfItem c :: restQ.map pairOfItem := by
      rw [hq1, List.map_cons]
    have hcm : pairOfItem c = m := lex_sorted_head_min hreadyPerm hLpair hmmem hmmin hL
    cases hcm
    have hnp : npRun fcfsKey pending t =
        ⟨(pairOfItem c).1, t, t + (pairOfItem c).2.burstTime⟩ ::
          npRun fcfsKey (pending.filter fun x => x.1 ≠ (pairOfItem c).1)
            (t + (pairOfItem c).2.burstTime) := by
      have hsome : pickBy (fun a b => qlex (fcfsKey a.2) (fcfsKey b.2))
          (pending.filter fun x => x.2.arrivalTime ≤ npStepTime pending t) =
          some (pairOfItem c) := by
        rw [ht1]
        exact hm
      have h := npRun_step_some fcfsKey pending t hsome
      rw [ht1] at h
      exact h
    have hLperm2 : List.Perm
        (pairOfItem c :: (restQ.map pairOfItem ++
          (future.dropWhile fun a => a.proc.arrivalTime ≤ t).map pairOfArr)) pending := by
      rw [← List.cons_append, ← hL]
      exact hLperm
    have hpnodup : (pending.map Prod.fst).Nodup :=
      List.pairwise_map.mpr (hpend.imp fun h => Nat.ne_of_lt h)
    have hfresh : ∀ x ∈ restQ.map pairOfItem ++
        (future.dropWhile fun a => a.proc.arrivalTime ≤ t).map pairOfArr,
        x.1 ≠ (pairOfItem c).1 := by
      have h3 := (hLperm2.map Prod.fst).nodup_iff.mpr hpnodup
      rw [List.map_cons] at h3
      have h4 := (List.nodup_cons.mp h3).1
      intro x hx hxe
      exact h4 (hxe ▸ List.mem_map_of_mem Prod.fst hx)
    have i1 : ∀ x ∈ restQ, x.remaining = x.proc.burstTime := fun x hx =>
      hqr2 x (by rw [hq1]; exact List.mem_cons_of_mem _ hx)
    have i2 : ∀ x ∈ restQ, x.proc.arrivalTime ≤ t + c.remaining := fun x hx =>
      le_trans (hqarr2 x (by rw [hq1]; exact List.mem_cons_of_mem _ hx))
        (le_add_of_nonneg_right (le_of_lt c.pos))
    have i3 : List.Pairwise pairLexLt (restQ.map pairOfItem) := by
      have hLpair2 := hLpair
      rw [hL] at hLpair2
      exact (List.pairwise_cons.mp hLpair2).2
    have i4 : List.Pairwise pairLexLt
        ((future.dropWhile fun a => a.proc.arrivalTime ≤ t).map pairOfArr) :=
      hfs.sublist ((List.dropWhile_suffix _).sublist.map pairOfArr)
    have i5 : ∀ x ∈ restQ, ∀ a ∈ future.dropWhile fun a => a.proc.arrivalTime ≤ t,
        x.proc.arrivalTime < a.proc.arrivalTime := by
      intro x hx a ha
      exact lt_of_le_of_lt
        (hqarr2 x (by rw [hq1]; exact List.mem_cons_of_mem _ hx))
        (dropWhile_arr_gt hfs a ha)
    have i6 : List.Perm
        (restQ.map pairOfItem ++
          (future.dropWhile fun a => a.proc.arrivalTime ≤ t).map pairOfArr)
        (pending.filter fun x => x.1 ≠ (pairOfItem c).1) := by
      have h5 := hLperm2.filter fun x : ℕ × ProcessInput => x.1 ≠ (pairOfItem c).1
      rw [List.filter_cons, if_neg (by simp)] at h5
      rw [List.filter_eq_self.mpr fun x hx => decide_eq_true (hfresh x hx)] at h5
      exact h5
    have i7 : List.Pairwise (fun a b => a.1 < b.1)
        (pending.filter fun x => x.1 ≠ (pairOfItem c).1) :=
      List.Pairwise.filter _ hpend
    have i8 : ∀ x ∈ pending.filter fun x => x.1 ≠ (pairOfItem c).1,
        x.2.burstTime ≤ q := fun x hx => hble x (List.mem_of_mem_filter hx)
    have hrec : rrRun q hq restQ (future.dropWhile fun a => a.proc.arrivalTime ≤ t)
        (t + c.remaining) =
        npRun fcfsKey (pending.filter fun x => x.1 ≠ (pairOfItem c).1)
          (t + c.remaining) :=
      ih (pending.filter fun x => x.1 ≠ (pairOfItem c).1) i1 i2 i3 i4 i5 i6 i7 i8
    rw [rrRun_step_complete hq1 hrem, hnp,
      show (pairOfItem c).2.burstTime = c.remaining from hcrem.symm, hrec]
    rfl
  | case4 queue future t arrived future1 c restQ hq1 hrem arrived2 future2 ih =>
    intro pending hqr hqarr hqs hfs hcross hperm hpend hble
    exfalso
    have hcmem : c ∈ queue ++
        (future.takeWhile fun a => a.proc.arrivalTime ≤ t).map toItem := by
      rw [hq1]
      exact List.mem_cons_self _ _
    have hcrem : c.remaining = c.proc.burstTime := by
      rcases List.mem_append.mp hcmem with hx | hx
      · exact hqr c hx
      · obtain ⟨a, ha, rfl⟩ := List.mem_map.mp hx
        rfl
    have hcpend : pairOfItem c ∈ pending := by
      refine hperm.subset ?_
      rcases List.mem_append.mp hcmem with hx | hx
      · exact List.mem_append_left _ (List.mem_map_of_mem _ hx)
      · obtain ⟨a, ha, rfl⟩ := List.mem_map.mp hx
        exact List.mem_append_right _ (List.mem_map_of_mem _
          ((List.takeWhile_prefix _).sublist.subset ha))
    have hle : c.remaining ≤ q := by
      rw [hcrem]
      exact hble _ hcpend
    exact hrem hle

/-- The singleton default workload is valid. -/
theorem defaultWorkload_valid : validWorkload [defaultProcess] := by
  unfold validWorkload validProcess defaultProcess
  refine ⟨by simp, by simp, ?_⟩
  intro p hp
  simp only [List.mem_singleton] at hp
  subst hp
  norm_num

/-- C6: on a valid workload whose every burst time is at most the supplied
quantum, Round-Robin degenerates to FCFS: the two policies produce the very
same slice timeline, hence the same process completion order (the sequence
of slice indices) and the same per-process finish times. -/
theorem claim_C6_rr_degenerates_to_fcfs (ps : List ProcessInput) (q : ℚ)
    (hv : validWorkload ps) (hq : 0 < q)
    (hmax : ∀ p ∈ ps, p.burstTime ≤ q) :
    roundRobinSlices ps q hq (validWorkload_burst_pos hv) = fcfsSlices ps ∧
    (roundRobinSlices ps q hq (validWorkload_burst_pos hv)).map Slice.idx =
      (fcfsSlices ps).map Slice.idx ∧
    (buildResult SchedulerKey.rr ps
        (roundRobinSlices ps q hq (validWorkload_burst_pos hv))).processes.map
        (fun r => (r.id, r.finishTime)) =
      (buildResult SchedulerKey.fcfs ps (fcfsSlices ps)).processes.map
        (fun r => (r.id, r.finishTime)) := by
  have hmain : roundRobinSlices ps q hq (validWorkload_burst_pos hv) = fcfsSlices ps := by
    unfold roundRobinSlices fcfsSlices
    refine rr_eq_fcfs_sim q hq [] (initArrivals ps (validWorkload_burst_pos hv)) 0
      ps.enum ?_ ?_ ?_ ?_ ?_ ?_ ?_ ?_
    · intro x hx
      cases hx
    · intro x hx
      cases hx
    · simp
    · exact initArrivals_sorted ps _
    · intro x hx
      cases hx
    · simpa using initArrivals_pairs_perm ps _
    · exact enum_pairwise_lt ps
    · intro x hx
      exact hmax x.2 (enum_snd_mem hx)
  refine ⟨hmain, by rw [hmain], ?_⟩
  unfold buildResult
  rw [hmain]

/-- Witness for C6: the default workload with quantum 100. -/
theorem claim_C6_witness :
    roundRobinSlices [defaultProcess] 100 (by norm_num)
        (validWorkload_burst_pos defaultWorkload_valid) =
      fcfsSlices [defaultProcess] ∧
    (roundRobinSlices [defaultProcess] 100 (by norm_num)
        (validWorkload_burst_pos defaultWorkload_valid)).map Slice.idx =
      (fcfsSlices [defaultProcess]).map Slice.idx := by
  have hmax : ∀ p ∈ [defaultProcess], p.burstTime ≤ (100 : ℚ) := by
    intro p hp
    simp only [List.mem_singleton] at hp
    subst hp
    norm_num [defaultProcess]
  have h := claim_C6_rr_degenerates_to_fcfs [defaultProcess] 100
    defaultWorkload_valid (by norm_num) hmax
  exact ⟨h.1, h.2.1⟩

end AIJobScheduler
